import Mathlib

/-!
# PhotoFlare `PaintWidget`: stroke lifecycle, undo/redo history and zoom

A shallow embedding of `src/PaintWidget.cpp`.

* `PaintWidgetPrivate` and `PaintWidget` carry the members of the two C++ classes that the
  handlers read or write.  The calls made on the active `Tool` and the signals the widget emits
  are recorded, in order, in `PaintWidget.trace`.
* `int` members (`historyIndex`, `QList::size()`) are unbounded `Int`: the index never leaves
  `0 .. size()`, and a list of `2^31` images is out of reach.
* `float` values are exact rationals.
* `Q_ASSERT` is compiled out (release build), so `disconnectLastTool` does nothing.
* `QList::at` outside the list is an assertion failure in Qt; the embedding returns `none` there.
* `Tool` is an external collaborator.  A tool paints on the device it was given by
  `setPaintDevice` and then raises `painted` with that device; only the connected tool paints
  on `d->image`.  A `painted` signal for `&d->image` therefore arrives together with the new
  pixel data of the surface (`PaintDevice.surface`).
* The mouse position is taken after its conversion to `QPoint`.
-/

namespace PhotoFlare

/-! ## Qt values -/

/-- A `QImage` value: its size and its pixel data. -/
structure QImage where
  width : Int
  height : Int
  bits : List Nat
deriving DecidableEq, Repr

/-- Identity of a `Tool` object (the pointer held in `currentTool`). -/
abbrev Tool := Nat

/-- A `QPoint` built from the scene position of a mouse event. -/
abbrev QPoint := Int × Int

/-- The enum `QPainter::CompositionMode`. -/
abbrev CompositionMode := Nat

/-- The flag set `Qt::MouseButtons` (and a single `Qt::MouseButton`), as its integer value. -/
abbrev MouseButtons := Nat

/-- The value `Qt::LeftButton`. -/
def LeftButton : MouseButtons := 1

/-- The value `Qt::RightButton`. -/
def RightButton : MouseButtons := 2

/-- The value `Qt::MiddleButton`. -/
def MiddleButton : MouseButtons := 4

/-- The test `QFlags::testFlag`: button `b` is among the held `buttons`. -/
def testFlag (buttons b : MouseButtons) : Bool :=
  (buttons &&& b) == b && (b != 0 || buttons == b)

/-- What the `QGraphicsPixmapItem` named `canvas` shows: a pixmap made from an image, or the
image composed with an overlay by `updateImageLabelWithOverlay`. -/
inductive QPixmap where
  | fromImage (image : QImage)
  | composed (image overlayImage : QImage) (mode : CompositionMode)
deriving DecidableEq, Repr

/-- The `QPaintDevice *` carried by `Tool::painted`: either `&d->image`, whose pixels the tool
has left as `bits`, or some other device. -/
inductive PaintDevice where
  | surface (bits : List Nat)
  | other
deriving DecidableEq, Repr

/-- The two signals of `Tool` that `setPaintTool` connects. -/
inductive ToolSignal where
  | painted (paintDevice : PaintDevice)
  | overlaid (overlayImage : QImage) (mode : CompositionMode)
deriving DecidableEq, Repr

/-- Calls made on a tool and signals emitted by the widget, as entries of `PaintWidget.trace`. -/
inductive Effect where
  | setPaintDevice (tool : Tool)
  | onMousePress (tool : Tool) (pos : QPoint) (button : MouseButtons)
  | onMouseMove (tool : Tool) (pos : QPoint)
  | onMouseRelease (tool : Tool) (pos : QPoint)
  | disconnect (tool : Tool)
  | contentChanged
  | zoomChanged (scale : ℚ)
deriving DecidableEq, Repr

/-! ## `PaintWidgetPrivate` -/

/-- Members of `PaintWidgetPrivate`.  `sceneRect` is the size last given to `setSceneRect`. -/
structure PaintWidgetPrivate where
  image : QImage
  currentTool : Option Tool
  canvas : QPixmap
  sceneRect : Int × Int
  scale : ℚ
  imageChanged : Bool
deriving DecidableEq, Repr

namespace PaintWidgetPrivate

/-- The constructor followed by initialize(image).  The constructor leaves `imageChanged`
uninitialised: `garbage` is the value it happens to hold. -/
def initialise (image : QImage) (garbage : Bool) : PaintWidgetPrivate :=
  { image := image
    currentTool := none
    canvas := .fromImage image
    sceneRect := (image.width, image.height)
    scale := 1
    imageChanged := garbage }

/-- The method `updateImageLabel`. -/
def updateImageLabel (d : PaintWidgetPrivate) : PaintWidgetPrivate :=
  { d with canvas := .fromImage d.image }

/-- The method `updateImageLabelWithOverlay`. -/
def updateImageLabelWithOverlay (d : PaintWidgetPrivate) (overlayImage : QImage)
    (mode : CompositionMode) : PaintWidgetPrivate :=
  { d with canvas := .composed d.image overlayImage mode }

/-- The method `PaintWidgetPrivate::setImage`. -/
def setImage (d : PaintWidgetPrivate) (image : QImage) : PaintWidgetPrivate :=
  let d1 :=
    if (d.image.width, d.image.height) ≠ (image.width, image.height) then
      { d with sceneRect := (image.width, image.height) }
    else d
  updateImageLabel { d1 with image := image }

end PaintWidgetPrivate

/-! ## `PaintWidget` -/

/-- Members of `PaintWidget`: the private part `d`, the history, the uniform factor of the view
matrix, and the trace of tool calls and emitted signals. -/
structure PaintWidget where
  d : PaintWidgetPrivate
  historyList : List QImage
  historyIndex : Int
  matrix : ℚ
  trace : List Effect
deriving DecidableEq, Repr

/-- The call `QList::removeAt(i)`: nothing happens when `i` is outside the list. -/
def removeAt (l : List QImage) (i : Int) : List QImage :=
  if 0 ≤ i ∧ i < l.length then l.eraseIdx i.toNat else l

/-- The call `QList::at(i)`; `none` outside the list. -/
def listAt (l : List QImage) (i : Int) : Option QImage :=
  if 0 ≤ i ∧ i < l.length then l[i.toNat]? else none

/-- The loop of `onContentChanged`:
`for (i = ...; i > historyIndex; i--) historyList.removeAt(i)`. -/
def truncateLoop (historyIndex : Int) (i : Int) (l : List QImage) : List QImage :=
  if i > historyIndex then truncateLoop historyIndex (i - 1) (removeAt l i) else l
termination_by (i - historyIndex).toNat
decreasing_by omega

namespace PaintWidget

/-- Either constructor followed by `init()`: `image` is the loaded or the blank image. -/
def construct (image : QImage) (garbage : Bool) : PaintWidget :=
  { d := PaintWidgetPrivate.initialise image garbage
    historyList := [image]
    historyIndex := 0
    matrix := 1
    trace := [] }

/-- The image made by the constructor from a size: every pixel white. -/
def blankImage (width height : Nat) : QImage :=
  { width := width, height := height, bits := List.replicate (width * height) 0xFFFFFFFF }

/-- The method `isUndoEnabled`. -/
def isUndoEnabled (w : PaintWidget) : Bool :=
  decide (w.historyIndex > 0)

/-- The method `isRedoEnabled`. -/
def isRedoEnabled (w : PaintWidget) : Bool :=
  decide (w.historyIndex < (w.historyList.length : Int) - 1)

/-- The method `image()`. -/
def image (w : PaintWidget) : QImage := w.d.image

/-- The method `onContentChanged` (the history commit). -/
def onContentChanged (w : PaintWidget) : PaintWidget :=
  let l := truncateLoop w.historyIndex ((w.historyList.length : Int) - 1) w.historyList
  { w with historyList := l ++ [w.d.image], historyIndex := w.historyIndex + 1 }

/-- The method `undo`. -/
def undo (w : PaintWidget) : Option PaintWidget :=
  if w.isUndoEnabled then
    let w1 := { w with historyIndex := w.historyIndex - 1 }
    (listAt w1.historyList w1.historyIndex).map fun entry =>
      { w1 with d := w1.d.setImage entry, trace := w1.trace ++ [Effect.contentChanged] }
  else some w

/-- The method `redo`. -/
def redo (w : PaintWidget) : Option PaintWidget :=
  if w.isRedoEnabled then
    let w1 := { w with historyIndex := w.historyIndex + 1 }
    (listAt w1.historyList w1.historyIndex).map fun entry =>
      { w1 with d := w1.d.setImage entry, trace := w1.trace ++ [Effect.contentChanged] }
  else some w

/-- The method `PaintWidget::setImage`. -/
def setImage (w : PaintWidget) (image : QImage) : PaintWidget :=
  let w1 := onContentChanged { w with d := w.d.setImage image }
  { w1 with trace := w1.trace ++ [Effect.contentChanged] }

/-- The method `setPaintTool`.  The connections to `Tool::painted` and `Tool::overlaid` are
those of `currentTool`: they are made here for the tool installed and dropped by
`currentTool->disconnect()` when it is replaced. -/
def setPaintTool (w : PaintWidget) (tool : Option Tool) : PaintWidget :=
  let w1 : PaintWidget :=
    match w.d.currentTool with
    | some old => { w with trace := w.trace ++ [Effect.disconnect old] }
    | none => w
  let w2 := { w1 with d := { w1.d with currentTool := tool } }
  match tool with
  | some t =>
    { w2 with d := w2.d.updateImageLabel, trace := w2.trace ++ [Effect.setPaintDevice t] }
  | none => w2

/-- The lambda connected to `Tool::painted`. -/
def onPainted (w : PaintWidget) : PaintDevice → PaintWidget
  | .surface _ =>
    let w1 := { w with d := w.d.updateImageLabel, trace := w.trace ++ [Effect.contentChanged] }
    { w1 with d := { w1.d with imageChanged := true } }
  | .other => w

/-- The lambda connected to `Tool::overlaid`. -/
def onOverlaid (w : PaintWidget) (overlayImage : QImage) (mode : CompositionMode) :
    PaintWidget :=
  { w with d := w.d.updateImageLabelWithOverlay overlayImage mode }

/-- The pixels a tool leaves in the device it paints on before it raises `painted`: painting on
`&d->image` replaces the pixel data of `d->image`, its size stays. -/
def toolPaints (w : PaintWidget) : PaintDevice → PaintWidget
  | .surface bits => { w with d := { w.d with image := { w.d.image with bits := bits } } }
  | .other => w

/-- A signal raised by the connected tool reaches its lambda; with no tool installed nothing is
connected. -/
def toolSignal (w : PaintWidget) (sig : ToolSignal) : PaintWidget :=
  match w.d.currentTool with
  | none => w
  | some _ =>
    match sig with
    | .painted paintDevice => onPainted (toolPaints w paintDevice) paintDevice
    | .overlaid overlayImage mode => onOverlaid w overlayImage mode

/-- The handler `mousePressEvent`.  Signals the tool raises inside `onMousePress` are handled
after the last statement, so they are the `toolSignal` events that follow. -/
def mousePressEvent (w : PaintWidget) (pos : QPoint) (button : MouseButtons) : PaintWidget :=
  match w.d.currentTool with
  | some t =>
    let w1 := { w with trace := w.trace ++ [Effect.setPaintDevice t] }
    let w2 := { w1 with d := { w1.d with imageChanged := false } }
    { w2 with trace := w2.trace ++ [Effect.onMousePress t pos button] }
  | none => w

/-- The handler `mouseMoveEvent`; `buttons` is `event->buttons()`. -/
def mouseMoveEvent (w : PaintWidget) (pos : QPoint) (buttons : MouseButtons) : PaintWidget :=
  if buttons ≠ LeftButton ∧ buttons ≠ RightButton then w
  else
    match w.d.currentTool with
    | some t => { w with trace := w.trace ++ [Effect.onMouseMove t pos] }
    | none => w

/-- The handler `mouseReleaseEvent`.  `reaction` lists the signals the tool raises inside
`onMouseRelease`, which are handled before `imageChanged` is read. -/
def mouseReleaseEvent (w : PaintWidget) (pos : QPoint) (reaction : List ToolSignal) :
    PaintWidget :=
  match w.d.currentTool with
  | some t =>
    let w1 := { w with trace := w.trace ++ [Effect.onMouseRelease t pos] }
    let w2 := reaction.foldl toolSignal w1
    if w2.d.imageChanged then
      let w3 := onContentChanged w2
      { w3 with trace := w3.trace ++ [Effect.contentChanged] }
    else w2
  | none => w

end PaintWidget

/-! ### Zoom -/

/-- The call `QString::lastIndexOf` for one character, scanning from position `i` with the
last match so far in `found`; the result is `-1` when the character does not occur. -/
def lastIndexOfFrom (c : Char) : List Char → Int → Int → Int
  | [], _, found => found
  | x :: xs, i, found => lastIndexOfFrom c xs (i + 1) (if x = c then i else found)

/-- The call `QString::mid(0, n)`: the first `n` characters, all of them when `n` is negative. -/
def mid0 (s : List Char) (n : Int) : List Char :=
  if n < 0 then s else s.take n.toNat

/-- The number written by a string of decimal digits. -/
def digitsValue (ds : List Char) : Nat :=
  ds.foldl (fun acc c => acc * 10 + (c.toNat - 48)) 0

/-- The call `QString::toFloat` on a decimal literal (optional sign, digits, optional fraction);
any other text gives `0`, the value Qt returns when the conversion fails.  Exponents, blanks
and locale forms are not covered. -/
def toFloat (s : List Char) : ℚ :=
  let signed : Bool × List Char :=
    match s with
    | '-' :: r => (true, r)
    | '+' :: r => (false, r)
    | r => (false, r)
  let whole := signed.2.takeWhile (fun c => c != '.')
  let frac := (signed.2.dropWhile (fun c => c != '.')).drop 1
  if (whole ++ frac).all Char.isDigit && !(whole ++ frac).isEmpty then
    let v : ℚ := (digitsValue (whole ++ frac) : ℚ) / (10 ^ frac.length : ℚ)
    if signed.1 then -v else v
  else 0

namespace PaintWidget

/-- The method `autoScale`; the arguments are `geometry().width()` and `geometry().height()`.
With an image of width or height `0` the quotients are not rationals: `none`. -/
def autoScale (w : PaintWidget) (geometryWidth geometryHeight : Int) : Option PaintWidget :=
  if w.image.width = 0 ∨ w.image.height = 0 then none
  else
    let scaleX : ℚ := (geometryWidth : ℚ) / (w.image.width : ℚ)
    let scaleY : ℚ := (geometryHeight : ℚ) / (w.image.height : ℚ)
    let scaleFactor : ℚ := if scaleX < scaleY then scaleX else scaleY
    let w1 : PaintWidget :=
      if scaleFactor < 1 then
        { w with d := { w.d with scale := scaleFactor }, matrix := 1 * scaleFactor }
      else w
    some { w1 with trace := w1.trace ++ [Effect.zoomChanged w1.d.scale] }

/-- The method `setScale`. -/
def setScale (w : PaintWidget) (rate : String) : PaintWidget :=
  let text := rate.toList
  let scale : ℚ := toFloat (mid0 text (lastIndexOfFrom '%' text 0 (-1))) / 100
  { w with d := { w.d with scale := scale }, matrix := 1 * scale }

/-- The method `getScale`. -/
def getScale (w : PaintWidget) : ℚ := w.d.scale

/-- The method `wheelEvent`; `delta` is `event->delta()`. -/
def wheelEvent (w : PaintWidget) (delta : Int) : PaintWidget :=
  let scaleFactor : ℚ := 11 / 10
  let scale : ℚ :=
    if delta > 0 then
      let s := w.d.scale / scaleFactor
      if s < 1 / 10 then 1 / 10 else s
    else
      let s := w.d.scale * scaleFactor
      if s > 8 then 8 else s
  { w with d := { w.d with scale := scale }, matrix := 1 * scale,
           trace := w.trace ++ [Effect.zoomChanged scale] }

end PaintWidget

/-! ## Events -/

/-- What can happen to a widget: a public method is called, the scene delivers a mouse event,
or the connected tool raises a signal. -/
inductive Event where
  | setPaintTool (tool : Option Tool)
  | setImage (image : QImage)
  | onContentChanged
  | undo
  | redo
  | mousePress (pos : QPoint) (button : MouseButtons)
  | mouseMove (pos : QPoint) (buttons : MouseButtons)
  | mouseRelease (pos : QPoint) (reaction : List ToolSignal)
  | toolSignal (sig : ToolSignal)
deriving DecidableEq, Repr

/-- One event handled; `none` when `QList::at` is called outside the list. -/
def step (w : PaintWidget) : Event → Option PaintWidget
  | .setPaintTool tool => some (w.setPaintTool tool)
  | .setImage image => some (w.setImage image)
  | .onContentChanged => some w.onContentChanged
  | .undo => w.undo
  | .redo => w.redo
  | .mousePress pos button => some (w.mousePressEvent pos button)
  | .mouseMove pos buttons => some (w.mouseMoveEvent pos buttons)
  | .mouseRelease pos reaction => some (w.mouseReleaseEvent pos reaction)
  | .toolSignal sig => some (w.toolSignal sig)

/-- A sequence of events handled in order. -/
def run (w : PaintWidget) : List Event → Option PaintWidget
  | [] => some w
  | e :: es => (step w e).bind fun w1 => run w1 es

/-- The zoom calls. -/
inductive ZoomEvent where
  | autoScale (geometryWidth geometryHeight : Int)
  | setScale (rate : String)
  | wheel (delta : Int)
deriving DecidableEq, Repr

/-- One zoom call handled. -/
def zoomStep (w : PaintWidget) : ZoomEvent → Option PaintWidget
  | .autoScale gw gh => w.autoScale gw gh
  | .setScale rate => some (w.setScale rate)
  | .wheel delta => some (w.wheelEvent delta)

/-- A sequence of zoom calls handled in order. -/
def zoomRun (w : PaintWidget) : List ZoomEvent → Option PaintWidget
  | [] => some w
  | e :: es => (zoomStep w e).bind fun w1 => zoomRun w1 es

/-- Repeating a fallible method `n` times. -/
def iterate (f : PaintWidget → Option PaintWidget) : Nat → PaintWidget → Option PaintWidget
  | 0, w => some w
  | n + 1, w => (f w).bind (iterate f n)

/-! ## Notions used in the statements -/

/-- The index points into the history: `0 ≤ historyIndex < historyList.size()`. -/
def IndexValid (w : PaintWidget) : Prop :=
  0 ≤ w.historyIndex ∧ w.historyIndex < (w.historyList.length : Int)

instance (w : PaintWidget) : Decidable (IndexValid w) := by
  unfold IndexValid
  exact inferInstance

/-- The history entry at the current index is the surface image. -/
def Synced (w : PaintWidget) : Prop :=
  listAt w.historyList w.historyIndex = some w.d.image

instance (w : PaintWidget) : Decidable (Synced w) := by
  unfold Synced
  exact inferInstance

/-- The signal reports that the tool painted on `&d->image`: a mutation of the surface. -/
def ToolSignal.isMutation : ToolSignal → Bool
  | .painted (.surface _) => true
  | _ => false

/-- The signal is `Tool::overlaid`. -/
def ToolSignal.isOverlay : ToolSignal → Bool
  | .overlaid _ _ => true
  | _ => false

/-- The event is a surface mutation signalled by the connected tool. -/
def Event.isMutation : Event → Bool
  | .toolSignal sig => sig.isMutation
  | _ => false

/-- The events that may fall between a press and its release while the tool stays installed:
pointer moves and signals of the tool. -/
def Event.isGestureBody : Event → Bool
  | .mouseMove _ _ => true
  | .toolSignal _ => true
  | _ => false

/-- A pointer move or an overlay signal. -/
def Event.isMoveOrOverlay : Event → Bool
  | .mouseMove _ _ => true
  | .toolSignal sig => sig.isOverlay
  | _ => false

/-- One gesture: a press, the events in between, the release. -/
def gesture (pos : QPoint) (button : MouseButtons) (body : List Event) (pos' : QPoint)
    (reaction : List ToolSignal) : List Event :=
  Event.mousePress pos button :: body ++ [Event.mouseRelease pos' reaction]

/-- Whether a gesture is in progress after an event, given whether one was before it. -/
def gestureAfter (g : Bool) : Event → Bool
  | .mousePress _ _ => true
  | .mouseRelease _ _ => false
  | _ => g

/-- Whether a gesture is in progress after a sequence of events: the last press has not been
followed by a release. -/
def gestureOpen (g : Bool) (evs : List Event) : Bool :=
  evs.foldl gestureAfter g

/-- The discipline of an orderly event source, for one event: a press starts a gesture only
when none is in progress, the tool is not removed during a gesture, and the tool signals a
surface mutation only during a gesture. -/
def allowed (g : Bool) : Event → Bool
  | .mousePress _ _ => !g
  | .setPaintTool none => !g
  | .toolSignal sig => g || !sig.isMutation
  | _ => true

/-- The discipline `allowed` along a sequence of events. -/
def disciplined : Bool → List Event → Bool
  | _, [] => true
  | g, e :: es => allowed g e && disciplined (gestureAfter g e) es

/-- The invariant behind the synchronisation of history and surface: the index is valid, and
the entry at the index is the surface image unless a gesture is in progress with the dirty flag
set and a tool installed (the release will then commit). -/
def SyncInv (w : PaintWidget) (g : Bool) : Prop :=
  IndexValid w ∧
    (Synced w ∨ (g = true ∧ w.d.imageChanged = true ∧ w.d.currentTool.isSome = true))

/-- A gesture during which `setPaintTool tool` is called: press, events, the swap, events,
release. -/
def swapGesture (pos : QPoint) (button : MouseButtons) (body1 : List Event)
    (tool : Option Tool) (body2 : List Event) (pos' : QPoint) (reaction : List ToolSignal) :
    List Event :=
  Event.mousePress pos button ::
    (body1 ++ Event.setPaintTool tool :: (body2 ++ [Event.mouseRelease pos' reaction]))

/-- A one-pixel image holding the value `n`. -/
def pixel (n : Nat) : QImage := { width := 1, height := 1, bits := [n] }

/-- A widget with the history `[pixel 0, pixel 1, pixel 2]` at index `2`. -/
def threeDeep : PaintWidget :=
  { PaintWidget.construct (pixel 2) false with
    historyList := [pixel 0, pixel 1, pixel 2]
    historyIndex := 2 }

/-- A tool is installed and, with no press delivered, signals that it painted on the
surface. -/
def strayPaint : List Event :=
  [Event.setPaintTool (some 0), Event.toolSignal (.painted (.surface [1]))]

/-- A tool is installed, one stroke is painted and released, then undone and redone. -/
def strokeUndoRedo : List Event :=
  [Event.setPaintTool (some 0), Event.mousePress (0, 0) LeftButton,
    Event.toolSignal (.painted (.surface [5])), Event.mouseMove (1, 1) LeftButton,
    Event.mouseRelease (1, 1) [], Event.undo, Event.redo]

/-- A second press (another button) arrives before the release of the first. -/
def nestedPress : List Event :=
  [Event.setPaintTool (some 0), Event.mousePress (0, 0) LeftButton,
    Event.toolSignal (.painted (.surface [5])), Event.mousePress (0, 0) RightButton,
    Event.mouseRelease (0, 0) [], Event.mouseRelease (0, 0) []]

/-- The tool is removed between a press and its release. -/
def toolRemoved : List Event :=
  [Event.setPaintTool (some 0), Event.mousePress (0, 0) LeftButton,
    Event.toolSignal (.painted (.surface [5])), Event.setPaintTool none,
    Event.mouseRelease (0, 0) []]

/-- A widget with the tool `1` installed on a fresh one-pixel canvas. -/
def withTool : PaintWidget :=
  (PaintWidget.construct (pixel 0) false).setPaintTool (some 1)

/-- The events between press and release of a stroke with three moves, one overlay and two
mutations. -/
def strokeBody : List Event :=
  [Event.mouseMove (1, 0) LeftButton, Event.toolSignal (.painted (.surface [4])),
    Event.mouseMove (2, 0) LeftButton, Event.toolSignal (.overlaid (pixel 8) 0),
    Event.toolSignal (.painted (.surface [5])), Event.mouseMove (3, 0) LeftButton]

/-- The events between press and release of a gesture that only shows previews. -/
def previewBody : List Event :=
  [Event.mouseMove (1, 0) LeftButton, Event.toolSignal (.overlaid (pixel 8) 0),
    Event.mouseMove (2, 0) LeftButton, Event.toolSignal (.overlaid (pixel 9) 0)]

/-- The tool `1` signals a mutation, then `setPaintTool` installs the tool `2`, which signals
nothing before the release. -/
def swapAfterPaint : List Event :=
  swapGesture (0, 0) LeftButton [Event.toolSignal (.painted (.surface [9]))] (some 2) []
    (0, 0) []

/-! ## Theorems -/

/-! ### The truncation loop -/

theorem truncateLoop_nil (idx : Int) (n : Nat) :
    ∀ i : Int, (i - idx).toNat ≤ n → truncateLoop idx i [] = [] := by
  induction n with
  | zero =>
    intro i hi
    rw [truncateLoop, if_neg (by omega)]
  | succ n ih =>
    intro i hi
    rw [truncateLoop]
    by_cases h : i > idx
    · rw [if_pos h]
      have hr : removeAt [] i = [] := by simp [removeAt]
      rw [hr]
      exact ih (i - 1) (by omega)
    · rw [if_neg h]

theorem removeAt_last (l : List QImage) (h : l ≠ []) :
    removeAt l ((l.length : Int) - 1) = l.dropLast := by
  have hpos : 0 < l.length := List.length_pos.mpr h
  have hn : ((l.length : Int) - 1).toNat = l.length - 1 := by omega
  unfold removeAt
  rw [if_pos (by omega), hn]
  exact (List.dropLast_eq_eraseIdx (by omega)).symm

theorem truncateLoop_eq_take (idx : Int) (n : Nat) :
    ∀ l : List QImage, l.length = n →
      truncateLoop idx ((l.length : Int) - 1) l = l.take (idx + 1).toNat := by
  induction n with
  | zero =>
    intro l hl
    have : l = [] := List.length_eq_zero.mp hl
    subst this
    simpa using truncateLoop_nil idx ((-1 - idx).toNat) (-1) (by simp)
  | succ n ih =>
    intro l hl
    have hne : l ≠ [] := by
      intro h
      simp [h] at hl
    rw [truncateLoop]
    by_cases h : (l.length : Int) - 1 > idx
    · rw [if_pos h, removeAt_last l hne]
      have hlen : l.dropLast.length = n := by simp [hl]
      have hcast : (l.length : Int) - 1 - 1 = (l.dropLast.length : Int) - 1 := by
        rw [hlen, hl]
        push_cast
        ring
      rw [hcast, ih l.dropLast hlen, List.dropLast_eq_take, List.take_take]
      congr 1
      omega
    · rw [if_neg h]
      exact (List.take_of_length_le (by omega)).symm

/-! ### Field lemmas for the commit -/

theorem onContentChanged_historyList (w : PaintWidget) :
    w.onContentChanged.historyList = w.historyList.take (w.historyIndex + 1).toNat ++ [w.d.image] := by
  simp [PaintWidget.onContentChanged, truncateLoop_eq_take w.historyIndex _ w.historyList rfl]

theorem onContentChanged_eq (w : PaintWidget) :
    w.onContentChanged = { w with
      historyList := w.historyList.take (w.historyIndex + 1).toNat ++ [w.d.image],
      historyIndex := w.historyIndex + 1 } := by
  simp [PaintWidget.onContentChanged, truncateLoop_eq_take w.historyIndex _ w.historyList rfl]

theorem onContentChanged_historyIndex (w : PaintWidget) :
    w.onContentChanged.historyIndex = w.historyIndex + 1 := rfl

theorem onContentChanged_d (w : PaintWidget) : w.onContentChanged.d = w.d := rfl

theorem onContentChanged_valid (w : PaintWidget) (hv : IndexValid w) :
    IndexValid w.onContentChanged ∧
      w.onContentChanged.historyIndex = (w.onContentChanged.historyList.length : Int) - 1 := by
  obtain ⟨h0, h1⟩ := hv
  unfold IndexValid
  rw [onContentChanged_historyList, onContentChanged_historyIndex]
  simp only [List.length_append, List.length_take, List.length_singleton]
  omega

theorem listAt_eq_some_iff (l : List QImage) (i : Int) (x : QImage) :
    listAt l i = some x ↔ 0 ≤ i ∧ l[i.toNat]? = some x := by
  unfold listAt
  constructor
  · intro h
    split at h
    · rename_i hc
      exact ⟨hc.1, h⟩
    · simp at h
  · rintro ⟨h0, hx⟩
    have hlt : i.toNat < l.length := (List.getElem?_eq_some.mp hx).1
    rw [if_pos ⟨h0, by omega⟩, hx]

theorem listAt_isSome (l : List QImage) (i : Int) (h0 : 0 ≤ i) (h1 : i < (l.length : Int)) :
    ∃ x, listAt l i = some x ∧ l[i.toNat]? = some x := by
  have hlt : i.toNat < l.length := by omega
  refine ⟨l[i.toNat], ?_, ?_⟩
  · rw [listAt_eq_some_iff]
    exact ⟨h0, List.getElem?_eq_getElem hlt⟩
  · exact List.getElem?_eq_getElem hlt

theorem onContentChanged_listAt (w : PaintWidget) (hv : IndexValid w) :
    listAt w.onContentChanged.historyList w.onContentChanged.historyIndex = some w.d.image := by
  obtain ⟨h0, h1⟩ := hv
  rw [listAt_eq_some_iff, onContentChanged_historyList, onContentChanged_historyIndex]
  refine ⟨by omega, ?_⟩
  have hlen : (List.take (w.historyIndex + 1).toNat w.historyList).length = (w.historyIndex + 1).toNat := by
    rw [List.length_take]
    omega
  rw [List.getElem?_append_right (by omega), hlen]
  simp

/-! ### Undo and redo -/

theorem setImage_image (d : PaintWidgetPrivate) (x : QImage) : (d.setImage x).image = x := by
  unfold PaintWidgetPrivate.setImage PaintWidgetPrivate.updateImageLabel
  rfl

theorem setImage_currentTool (d : PaintWidgetPrivate) (x : QImage) :
    (d.setImage x).currentTool = d.currentTool := by
  unfold PaintWidgetPrivate.setImage PaintWidgetPrivate.updateImageLabel
  split <;> rfl

theorem setImage_imageChanged (d : PaintWidgetPrivate) (x : QImage) :
    (d.setImage x).imageChanged = d.imageChanged := by
  unfold PaintWidgetPrivate.setImage PaintWidgetPrivate.updateImageLabel
  split <;> rfl

theorem setImage_scale (d : PaintWidgetPrivate) (x : QImage) :
    (d.setImage x).scale = d.scale := by
  unfold PaintWidgetPrivate.setImage PaintWidgetPrivate.updateImageLabel
  split <;> rfl

theorem undo_of_not_pos (w : PaintWidget) (h : ¬ 0 < w.historyIndex) : w.undo = some w := by
  simp [PaintWidget.undo, PaintWidget.isUndoEnabled, h]

theorem undo_of_pos (w : PaintWidget) (hv : IndexValid w) (h : 0 < w.historyIndex) :
    ∃ x, listAt w.historyList (w.historyIndex - 1) = some x ∧
      w.undo = some { w with historyIndex := w.historyIndex - 1, d := w.d.setImage x,
                             trace := w.trace ++ [Effect.contentChanged] } := by
  obtain ⟨x, hx, -⟩ := listAt_isSome w.historyList (w.historyIndex - 1) (by omega)
    (by have := hv.2; omega)
  refine ⟨x, hx, ?_⟩
  simp [PaintWidget.undo, PaintWidget.isUndoEnabled, h, hx]

theorem redo_of_last (w : PaintWidget) (h : ¬ w.historyIndex < (w.historyList.length : Int) - 1) :
    w.redo = some w := by
  simp [PaintWidget.redo, PaintWidget.isRedoEnabled, h]

theorem redo_of_lt (w : PaintWidget) (hv : IndexValid w)
    (h : w.historyIndex < (w.historyList.length : Int) - 1) :
    ∃ x, listAt w.historyList (w.historyIndex + 1) = some x ∧
      w.redo = some { w with historyIndex := w.historyIndex + 1, d := w.d.setImage x,
                             trace := w.trace ++ [Effect.contentChanged] } := by
  obtain ⟨x, hx, -⟩ := listAt_isSome w.historyList (w.historyIndex + 1)
    (by have := hv.1; omega) (by omega)
  refine ⟨x, hx, ?_⟩
  simp [PaintWidget.redo, PaintWidget.isRedoEnabled, h, hx]

theorem undo_pos_fields (w : PaintWidget) (hv : IndexValid w) (h : 0 < w.historyIndex) :
    ∃ u, w.undo = some u ∧ Synced u ∧ u.historyList = w.historyList ∧
      u.historyIndex = w.historyIndex - 1 ∧ u.d.currentTool = w.d.currentTool ∧
      u.d.imageChanged = w.d.imageChanged := by
  obtain ⟨x, hx, hu⟩ := undo_of_pos w hv h
  refine ⟨_, hu, ?_, rfl, rfl, setImage_currentTool _ _, setImage_imageChanged _ _⟩
  simpa [Synced, setImage_image] using hx

theorem redo_lt_fields (w : PaintWidget) (hv : IndexValid w)
    (h : w.historyIndex < (w.historyList.length : Int) - 1) :
    ∃ r, w.redo = some r ∧ Synced r ∧ r.historyList = w.historyList ∧
      r.historyIndex = w.historyIndex + 1 ∧ r.d.currentTool = w.d.currentTool ∧
      r.d.imageChanged = w.d.imageChanged := by
  obtain ⟨x, hx, hu⟩ := redo_of_lt w hv h
  refine ⟨_, hu, ?_, rfl, rfl, setImage_currentTool _ _, setImage_imageChanged _ _⟩
  simpa [Synced, setImage_image] using hx

/-! ### C1 -/

/-- C1: with an index `i` inside the history `H`, `onContentChanged` leaves the history equal
to the first `i + 1` entries of `H` followed by the surface image and the index equal to
`i + 1`, the new last position, so `isUndoEnabled` holds and `isRedoEnabled` does not.  From
`[S0, S1, S2]` at index `2`, `undo` followed by a commit of `S3` (through `setImage`, or
through any path that leaves `S3` on the surface with history and index untouched before
`onContentChanged`) gives `[S0, S1, S3]` at index `2`. -/
theorem onContentChanged_commit (w : PaintWidget) (h0 : 0 ≤ w.historyIndex)
    (h1 : w.historyIndex < (w.historyList.length : Int)) :
    w.onContentChanged.historyList
        = w.historyList.take (w.historyIndex.toNat + 1) ++ [w.image] ∧
      w.onContentChanged.historyIndex = w.historyIndex + 1 ∧
      w.onContentChanged.historyIndex = (w.onContentChanged.historyList.length : Int) - 1 ∧
      w.onContentChanged.isUndoEnabled = true ∧
      w.onContentChanged.isRedoEnabled = false ∧
      (∀ S0 S1 S2 S3 : QImage, w.historyList = [S0, S1, S2] → w.historyIndex = 2 →
        ∃ u, w.undo = some u ∧ u.historyList = [S0, S1, S2] ∧ u.historyIndex = 1 ∧
          (u.setImage S3).historyList = [S0, S1, S3] ∧
          (u.setImage S3).historyIndex = 2 ∧
          (u.setImage S3).isRedoEnabled = false ∧
          ∀ v : PaintWidget, v.historyList = u.historyList →
            v.historyIndex = u.historyIndex → v.image = S3 →
            v.onContentChanged.historyList = [S0, S1, S3] ∧
              v.onContentChanged.historyIndex = 2 ∧
              v.onContentChanged.isRedoEnabled = false) := by
  have hv : IndexValid w := ⟨h0, h1⟩
  have hlast := (onContentChanged_valid w hv).2
  have hnat : (w.historyIndex + 1).toNat = w.historyIndex.toNat + 1 := by omega
  refine ⟨?_, rfl, hlast, ?_, ?_, ?_⟩
  · rw [onContentChanged_historyList, hnat]
    rfl
  · simp only [PaintWidget.isUndoEnabled, onContentChanged_historyIndex, decide_eq_true_eq]
    omega
  · simp only [PaintWidget.isRedoEnabled, decide_eq_false_iff_not]
    omega
  · intro S0 S1 S2 S3 hH hi
    obtain ⟨x, hx, hu⟩ := undo_of_pos w hv (by omega)
    refine ⟨_, hu, hH, by simp [hi], ?_, ?_, ?_, ?_⟩
    · simp [PaintWidget.setImage, onContentChanged_historyList, hH, hi, setImage_image]
    · simp [PaintWidget.setImage, onContentChanged_historyIndex, hi]
    · simp [PaintWidget.setImage, PaintWidget.isRedoEnabled, onContentChanged_historyList,
        onContentChanged_historyIndex, hH, hi]
    · intro v hvH hvi hvS
      simp only [] at hvH hvi
      simp only [PaintWidget.image] at hvS
      simp [PaintWidget.isRedoEnabled, onContentChanged_historyList,
        onContentChanged_historyIndex, hvH, hvi, hH, hi, hvS]

/-- C1 at the widget `threeDeep`, whose history is `[pixel 0, pixel 1, pixel 2]` at index `2`
with `pixel 2` on the surface: the commit appends, and after `undo` a commit of `pixel 3`
gives `[pixel 0, pixel 1, pixel 3]` at index `2`. -/
theorem onContentChanged_commit_witness :
    (0 ≤ threeDeep.historyIndex ∧ threeDeep.historyIndex < (threeDeep.historyList.length : Int)) ∧
      threeDeep.onContentChanged.historyList = [pixel 0, pixel 1, pixel 2, pixel 2] ∧
      threeDeep.onContentChanged.historyIndex = 3 ∧
      (threeDeep.undo.map fun u => ((u.setImage (pixel 3)).historyList,
          (u.setImage (pixel 3)).historyIndex)) = some ([pixel 0, pixel 1, pixel 3], 2) := by
  have h := onContentChanged_commit threeDeep (by decide) (by decide)
  refine ⟨by decide, ?_, h.2.1, ?_⟩
  · rw [h.1]
    rfl
  · obtain ⟨u, hu, -, -, hl, hi, -⟩ := h.2.2.2.2.2 (pixel 0) (pixel 1) (pixel 2) (pixel 3) rfl rfl
    rw [hu]
    simp [hl, hi]

/-! ### C4 -/

theorem Synced.indexValid {w : PaintWidget} (h : Synced w) : IndexValid w := by
  unfold Synced listAt at h
  split at h
  · assumption
  · simp at h

/-- C4: with the index inside the history, `undo` and `redo` return and never change the
history sequence.  At index `0` `undo` changes nothing and `isUndoEnabled` is false; otherwise
it lowers the index by one and installs the entry at the new index as the surface image.  At
the last index `redo` changes nothing and `isRedoEnabled` is false; otherwise it raises the
index by one and installs the entry at the new index. -/
theorem undo_redo_step (w : PaintWidget) (h0 : 0 ≤ w.historyIndex)
    (h1 : w.historyIndex < (w.historyList.length : Int)) :
    (∃ u, w.undo = some u ∧ u.historyList = w.historyList ∧
      (w.historyIndex = 0 → u = w ∧ w.isUndoEnabled = false) ∧
      (w.historyIndex ≠ 0 → w.isUndoEnabled = true ∧ u.historyIndex = w.historyIndex - 1 ∧
        listAt w.historyList (w.historyIndex - 1) = some u.image)) ∧
    (∃ r, w.redo = some r ∧ r.historyList = w.historyList ∧
      (w.historyIndex = (w.historyList.length : Int) - 1 → r = w ∧ w.isRedoEnabled = false) ∧
      (w.historyIndex ≠ (w.historyList.length : Int) - 1 →
        w.isRedoEnabled = true ∧ r.historyIndex = w.historyIndex + 1 ∧
        listAt w.historyList (w.historyIndex + 1) = some r.image)) := by
  have hv : IndexValid w := ⟨h0, h1⟩
  constructor
  · by_cases hz : w.historyIndex = 0
    · refine ⟨w, undo_of_not_pos w (by omega), rfl, fun _ => ⟨rfl, ?_⟩, fun h => absurd hz h⟩
      simp [PaintWidget.isUndoEnabled, hz]
    · obtain ⟨x, hx, hu⟩ := undo_of_pos w hv (by omega)
      refine ⟨_, hu, rfl, fun h => absurd h hz, fun _ => ⟨?_, rfl, ?_⟩⟩
      · simp only [PaintWidget.isUndoEnabled, decide_eq_true_eq]
        omega
      · simpa [PaintWidget.image, setImage_image] using hx
  · by_cases hz : w.historyIndex = (w.historyList.length : Int) - 1
    · refine ⟨w, redo_of_last w (by omega), rfl, fun _ => ⟨rfl, ?_⟩, fun h => absurd hz h⟩
      simp [PaintWidget.isRedoEnabled, hz]
    · obtain ⟨x, hx, hu⟩ := redo_of_lt w hv (by omega)
      refine ⟨_, hu, rfl, fun h => absurd h hz, fun _ => ⟨?_, rfl, ?_⟩⟩
      · simp only [PaintWidget.isRedoEnabled, decide_eq_true_eq]
        omega
      · simpa [PaintWidget.image, setImage_image] using hx

/-- C4 at `threeDeep` (history `[pixel 0, pixel 1, pixel 2]`, index `2`): `undo` moves to
index `1` with `pixel 1` on the surface and `redo`, at the last index, changes nothing. -/
theorem undo_redo_step_witness :
    (0 ≤ threeDeep.historyIndex ∧ threeDeep.historyIndex < (threeDeep.historyList.length : Int)) ∧
      (threeDeep.undo.map fun u => (u.historyList, u.historyIndex, u.image))
        = some ([pixel 0, pixel 1, pixel 2], 1, pixel 1) ∧
      threeDeep.redo = some threeDeep := by
  obtain ⟨⟨u, hu, hl, -, hstep⟩, ⟨r, hr, -, hlast, -⟩⟩ :=
    undo_redo_step threeDeep (by decide) (by decide)
  refine ⟨by decide, ?_, ?_⟩
  · obtain ⟨-, hi, himg⟩ := hstep (by decide)
    have hp : listAt threeDeep.historyList (threeDeep.historyIndex - 1) = some (pixel 1) := by
      decide
    rw [hp] at himg
    rw [hu]
    simp only [Option.map_some', hl, hi, ← Option.some.inj himg]
    rfl
  · rw [hr, (hlast (by decide)).1]

/-! ### C2 -/

theorem setImage_historyList (w : PaintWidget) (x : QImage) :
    (w.setImage x).historyList = w.historyList.take (w.historyIndex + 1).toNat ++ [x] := by
  simp [PaintWidget.setImage, onContentChanged_historyList, setImage_image]

theorem setImage_historyIndex (w : PaintWidget) (x : QImage) :
    (w.setImage x).historyIndex = w.historyIndex + 1 := rfl

theorem setImage_d_image (w : PaintWidget) (x : QImage) : (w.setImage x).d.image = x := by
  simp [PaintWidget.setImage, onContentChanged_d, setImage_image]

theorem setImage_synced (w : PaintWidget) (x : QImage) (hv : IndexValid w) :
    Synced (w.setImage x) := by
  have h := onContentChanged_listAt { w with d := w.d.setImage x } hv
  simpa [Synced, PaintWidget.setImage, setImage_image] using h

theorem foldl_setImage (commits : List QImage) :
    ∀ w : PaintWidget, Synced w → w.historyIndex = (w.historyList.length : Int) - 1 →
      Synced (commits.foldl PaintWidget.setImage w) ∧
        (commits.foldl PaintWidget.setImage w).historyList = w.historyList ++ commits ∧
        (commits.foldl PaintWidget.setImage w).historyIndex
          = w.historyIndex + (commits.length : Int) := by
  induction commits with
  | nil =>
    intro w hs _
    simpa using hs
  | cons x xs ih =>
    intro w hs hlast
    have hv := hs.indexValid
    have hl : (w.setImage x).historyList = w.historyList ++ [x] := by
      rw [setImage_historyList, List.take_of_length_le (by omega)]
    have hi : (w.setImage x).historyIndex = ((w.setImage x).historyList.length : Int) - 1 := by
      rw [hl, setImage_historyIndex, hlast]
      simp
    obtain ⟨h1, h2, h3⟩ := ih (w.setImage x) (setImage_synced w x hv) hi
    refine ⟨h1, ?_, ?_⟩
    · rw [List.foldl_cons, h2, hl]
      simp
    · rw [List.foldl_cons, h3, setImage_historyIndex]
      simp only [List.length_cons]
      push_cast
      ring

theorem iterate_undo (k : Nat) :
    ∀ w : PaintWidget, Synced w → (k : Int) ≤ w.historyIndex →
      ∃ u, iterate PaintWidget.undo k w = some u ∧ Synced u ∧
        u.historyList = w.historyList ∧ u.historyIndex = w.historyIndex - (k : Int) := by
  induction k with
  | zero =>
    intro w hs _
    exact ⟨w, rfl, hs, rfl, by simp⟩
  | succ k ih =>
    intro w hs hk
    obtain ⟨w1, hu, hs1, hl1, hi1, -⟩ := undo_pos_fields w hs.indexValid (by omega)
    obtain ⟨u, h1, h2, h3, h4⟩ := ih w1 hs1 (by omega)
    refine ⟨u, ?_, h2, h3.trans hl1, ?_⟩
    · simp [iterate, hu, h1]
    · rw [h4, hi1]
      push_cast
      ring

theorem iterate_redo (k : Nat) :
    ∀ w : PaintWidget, Synced w → w.historyIndex + (k : Int) < (w.historyList.length : Int) →
      ∃ r, iterate PaintWidget.redo k w = some r ∧ Synced r ∧
        r.historyList = w.historyList ∧ r.historyIndex = w.historyIndex + (k : Int) := by
  induction k with
  | zero =>
    intro w hs _
    exact ⟨w, rfl, hs, rfl, by simp⟩
  | succ k ih =>
    intro w hs hk
    obtain ⟨w1, hu, hs1, hl1, hi1, -⟩ := redo_lt_fields w hs.indexValid (by omega)
    obtain ⟨r, h1, h2, h3, h4⟩ := ih w1 hs1 (by rw [hl1, hi1]; push_cast at hk; omega)
    refine ⟨r, ?_, h2, h3.trans hl1, ?_⟩
    · simp [iterate, hu, h1]
    · rw [h4, hi1]
      push_cast
      ring

theorem construct_synced (image : QImage) (garbage : Bool) :
    Synced (PaintWidget.construct image garbage) := by
  simp [Synced, PaintWidget.construct, PaintWidgetPrivate.initialise, listAt]

theorem listAt_cons_last (image : QImage) (commits : List QImage) (x : QImage)
    (h : listAt (image :: commits) (commits.length : Int) = some x) :
    x = (image :: commits).getLast (List.cons_ne_nil _ _) := by
  rw [listAt_eq_some_iff] at h
  have h2 := h.2
  rw [Int.toNat_ofNat] at h2
  rw [List.getLast_eq_getElem]
  have hlt : commits.length < (image :: commits).length := by simp
  rw [List.getElem?_eq_getElem hlt] at h2
  simpa using (Option.some.inj h2).symm

/-- C2: on a freshly constructed widget, after the `N` commits `setImage c₁ … setImage c_N`
the surface holds the `N`-th committed image at index `N`; `N` calls of `undo` all return,
leave the initial image on the surface at index `0` with `isUndoEnabled` false, and `N` calls
of `redo` then restore the `N`-th committed image (the initial one when `N = 0`) at index `N`,
the history being the initial image followed by the commits throughout. -/
theorem undo_redo_round_trip (image : QImage) (garbage : Bool) (commits : List QImage) :
    ∃ u r,
      iterate PaintWidget.undo commits.length
          (commits.foldl PaintWidget.setImage (PaintWidget.construct image garbage)) = some u ∧
        u.isUndoEnabled = false ∧ u.historyIndex = 0 ∧ u.image = image ∧
        iterate PaintWidget.redo commits.length u = some r ∧
        r.image = (image :: commits).getLast (List.cons_ne_nil _ _) ∧
        r.historyIndex = (commits.length : Int) ∧
        r.historyList = image :: commits ∧
        r.image = (commits.foldl PaintWidget.setImage
          (PaintWidget.construct image garbage)).image := by
  obtain ⟨hs, hl, hi⟩ := foldl_setImage commits (PaintWidget.construct image garbage)
    (construct_synced image garbage) (by simp [PaintWidget.construct])
  have hl' : (commits.foldl PaintWidget.setImage (PaintWidget.construct image garbage)).historyList
      = image :: commits := by simpa [PaintWidget.construct] using hl
  have hi' : (commits.foldl PaintWidget.setImage (PaintWidget.construct image garbage)).historyIndex
      = (commits.length : Int) := by simpa [PaintWidget.construct] using hi
  obtain ⟨u, hu, hus, hul, hui⟩ := iterate_undo commits.length _ hs (by omega)
  have hui0 : u.historyIndex = 0 := by omega
  obtain ⟨r, hr, hrs, hrl, hri⟩ := iterate_redo commits.length u hus
    (by rw [hui0, hul, hl']; simp)
  have hrN : r.historyIndex = (commits.length : Int) := by omega
  have hrimg : r.image = (image :: commits).getLast (List.cons_ne_nil _ _) := by
    apply listAt_cons_last
    have := hrs
    unfold Synced at this
    rwa [hrl, hul, hl', hrN] at this
  have hwimg : (commits.foldl PaintWidget.setImage (PaintWidget.construct image garbage)).image
      = (image :: commits).getLast (List.cons_ne_nil _ _) := by
    apply listAt_cons_last
    have := hs
    unfold Synced at this
    rwa [hl', hi'] at this
  refine ⟨u, r, hu, ?_, hui0, ?_, hr, hrimg, hrN, ?_, ?_⟩
  · simp [PaintWidget.isUndoEnabled, hui0]
  · have := hus
    unfold Synced at this
    rw [hul, hl', hui0] at this
    simpa [listAt, PaintWidget.image] using this.symm
  · rw [hrl, hul, hl']
  · rw [hrimg, hwimg]

/-! ### Field lemmas for the handlers -/

theorem toolSignal_historyList (w : PaintWidget) (sig : ToolSignal) :
    (w.toolSignal sig).historyList = w.historyList := by
  unfold PaintWidget.toolSignal
  cases w.d.currentTool with
  | none => rfl
  | some t =>
    cases sig with
    | painted dev => cases dev <;> rfl
    | overlaid ov mode => rfl

theorem toolSignal_historyIndex (w : PaintWidget) (sig : ToolSignal) :
    (w.toolSignal sig).historyIndex = w.historyIndex := by
  unfold PaintWidget.toolSignal
  cases w.d.currentTool with
  | none => rfl
  | some t =>
    cases sig with
    | painted dev => cases dev <;> rfl
    | overlaid ov mode => rfl

theorem toolSignal_currentTool (w : PaintWidget) (sig : ToolSignal) :
    (w.toolSignal sig).d.currentTool = w.d.currentTool := by
  unfold PaintWidget.toolSignal
  cases h : w.d.currentTool with
  | none => exact h
  | some t =>
    cases sig with
    | painted dev => cases dev <;> exact h
    | overlaid ov mode => exact h

theorem toolSignal_imageChanged (w : PaintWidget) (sig : ToolSignal) :
    (w.toolSignal sig).d.imageChanged
      = (w.d.imageChanged || (w.d.currentTool.isSome && sig.isMutation)) := by
  unfold PaintWidget.toolSignal
  cases h : w.d.currentTool with
  | none => simp
  | some t =>
    cases sig with
    | painted dev =>
      cases dev <;>
        simp [PaintWidget.onPainted, PaintWidget.toolPaints, ToolSignal.isMutation,
          PaintWidgetPrivate.updateImageLabel]
    | overlaid ov mode =>
      simp [PaintWidget.onOverlaid, ToolSignal.isMutation,
        PaintWidgetPrivate.updateImageLabelWithOverlay]

theorem toolSignal_image (w : PaintWidget) (sig : ToolSignal) (h : sig.isMutation = false) :
    (w.toolSignal sig).d.image = w.d.image := by
  unfold PaintWidget.toolSignal
  cases w.d.currentTool with
  | none => rfl
  | some t =>
    cases sig with
    | painted dev =>
      cases dev with
      | surface bits => simp [ToolSignal.isMutation] at h
      | other => rfl
    | overlaid ov mode => rfl

theorem toolSignal_none (w : PaintWidget) (sig : ToolSignal) (h : w.d.currentTool = none) :
    w.toolSignal sig = w := by
  unfold PaintWidget.toolSignal
  rw [h]

theorem foldl_toolSignal_fields (reaction : List ToolSignal) :
    ∀ w : PaintWidget,
      (reaction.foldl PaintWidget.toolSignal w).historyList = w.historyList ∧
      (reaction.foldl PaintWidget.toolSignal w).historyIndex = w.historyIndex ∧
      (reaction.foldl PaintWidget.toolSignal w).d.currentTool = w.d.currentTool ∧
      (reaction.foldl PaintWidget.toolSignal w).d.imageChanged
        = (w.d.imageChanged || (w.d.currentTool.isSome && reaction.any ToolSignal.isMutation)) ∧
      (reaction.any ToolSignal.isMutation = false →
        (reaction.foldl PaintWidget.toolSignal w).d.image = w.d.image) := by
  induction reaction with
  | nil =>
    intro w
    simp
  | cons sig rest ih =>
    intro w
    obtain ⟨h1, h2, h3, h4, h5⟩ := ih (w.toolSignal sig)
    refine ⟨?_, ?_, ?_, ?_, ?_⟩
    · rw [List.foldl_cons, h1, toolSignal_historyList]
    · rw [List.foldl_cons, h2, toolSignal_historyIndex]
    · rw [List.foldl_cons, h3, toolSignal_currentTool]
    · rw [List.foldl_cons, h4, toolSignal_imageChanged, toolSignal_currentTool, List.any_cons]
      generalize w.d.imageChanged = a
      generalize w.d.currentTool.isSome = b
      generalize sig.isMutation = c
      generalize rest.any ToolSignal.isMutation = e
      cases a <;> cases b <;> cases c <;> cases e <;> rfl
    · intro hno
      simp only [List.any_cons, Bool.or_eq_false_iff] at hno
      rw [List.foldl_cons, h5 hno.2, toolSignal_image w sig hno.1]

theorem mouseMoveEvent_fields (w : PaintWidget) (pos : QPoint) (buttons : MouseButtons) :
    (w.mouseMoveEvent pos buttons).d = w.d ∧
      (w.mouseMoveEvent pos buttons).historyList = w.historyList ∧
      (w.mouseMoveEvent pos buttons).historyIndex = w.historyIndex := by
  unfold PaintWidget.mouseMoveEvent
  split
  · exact ⟨rfl, rfl, rfl⟩
  · cases w.d.currentTool <;> exact ⟨rfl, rfl, rfl⟩

theorem mousePressEvent_fields (w : PaintWidget) (pos : QPoint) (button : MouseButtons) :
    (w.mousePressEvent pos button).d.image = w.d.image ∧
      (w.mousePressEvent pos button).d.currentTool = w.d.currentTool ∧
      (w.mousePressEvent pos button).historyList = w.historyList ∧
      (w.mousePressEvent pos button).historyIndex = w.historyIndex ∧
      (w.mousePressEvent pos button).d.imageChanged
        = (w.d.imageChanged && !w.d.currentTool.isSome) := by
  unfold PaintWidget.mousePressEvent
  cases h : w.d.currentTool with
  | none => simp [h]
  | some t => simp [h]

theorem mouseReleaseEvent_none (w : PaintWidget) (pos : QPoint) (reaction : List ToolSignal)
    (h : w.d.currentTool = none) : w.mouseReleaseEvent pos reaction = w := by
  unfold PaintWidget.mouseReleaseEvent
  rw [h]

theorem mouseReleaseEvent_some (w : PaintWidget) (pos : QPoint) (reaction : List ToolSignal)
    (t : Tool) (h : w.d.currentTool = some t) :
    (w.mouseReleaseEvent pos reaction).d.currentTool = some t ∧
    ((w.d.imageChanged || reaction.any ToolSignal.isMutation) = true →
      (w.mouseReleaseEvent pos reaction).historyList
          = w.historyList.take (w.historyIndex + 1).toNat
            ++ [(w.mouseReleaseEvent pos reaction).d.image] ∧
        (w.mouseReleaseEvent pos reaction).historyIndex = w.historyIndex + 1) ∧
    ((w.d.imageChanged || reaction.any ToolSignal.isMutation) = false →
      (w.mouseReleaseEvent pos reaction).historyList = w.historyList ∧
        (w.mouseReleaseEvent pos reaction).historyIndex = w.historyIndex ∧
        (w.mouseReleaseEvent pos reaction).d.image = w.d.image ∧
        (w.mouseReleaseEvent pos reaction).d.imageChanged = false) := by
  obtain ⟨h1, h2, h3, h4, h5⟩ := foldl_toolSignal_fields reaction
    { w with trace := w.trace ++ [Effect.onMouseRelease t pos] }
  simp only [h, Option.isSome_some, Bool.true_and] at h1 h2 h3 h4 h5
  unfold PaintWidget.mouseReleaseEvent
  simp only [h]
  refine ⟨?_, ?_, ?_⟩
  · split
    · exact h3
    · exact h3
  · intro hd
    rw [if_pos (h4.trans hd)]
    simp only [onContentChanged_historyList, onContentChanged_historyIndex, onContentChanged_d,
      h1, h2]
    exact ⟨trivial, trivial⟩
  · intro hd
    have hf : ¬ (List.foldl PaintWidget.toolSignal
        { w with trace := w.trace ++ [Effect.onMouseRelease t pos] } reaction).d.imageChanged
        = true := by
      rw [h4, hd]
      simp
    rw [if_neg hf]
    simp only [Bool.or_eq_false_iff] at hd
    exact ⟨h1, h2, h5 hd.2, by simpa using hf⟩

theorem setPaintTool_fields (w : PaintWidget) (tool : Option Tool) :
    (w.setPaintTool tool).d.image = w.d.image ∧
      (w.setPaintTool tool).d.currentTool = tool ∧
      (w.setPaintTool tool).d.imageChanged = w.d.imageChanged ∧
      (w.setPaintTool tool).historyList = w.historyList ∧
      (w.setPaintTool tool).historyIndex = w.historyIndex := by
  unfold PaintWidget.setPaintTool
  cases w.d.currentTool <;> cases tool <;>
    simp [PaintWidgetPrivate.updateImageLabel]

/-! ### C5 -/

theorem IndexValid.transfer {w w' : PaintWidget} (hv : IndexValid w)
    (hl : w'.historyList = w.historyList) (hi : w'.historyIndex = w.historyIndex) :
    IndexValid w' := by
  unfold IndexValid at *
  rw [hl, hi]
  exact hv

theorem Synced.carry {w w' : PaintWidget} (hs : Synced w)
    (hl : w'.historyList = w.historyList) (hi : w'.historyIndex = w.historyIndex)
    (hm : w'.d.image = w.d.image) : Synced w' := by
  unfold Synced at *
  rw [hl, hi, hm]
  exact hs

theorem synced_of_commit {w w' : PaintWidget} (hv : IndexValid w)
    (hl : w'.historyList = w.historyList.take (w.historyIndex + 1).toNat ++ [w'.d.image])
    (hi : w'.historyIndex = w.historyIndex + 1) : Synced w' := by
  obtain ⟨h0, h1⟩ := hv
  unfold Synced
  rw [listAt_eq_some_iff, hl, hi]
  refine ⟨by omega, ?_⟩
  have hlen : (List.take (w.historyIndex + 1).toNat w.historyList).length
      = (w.historyIndex + 1).toNat := by
    rw [List.length_take]
    omega
  rw [List.getElem?_append_right (by omega), hlen]
  simp

theorem step_indexValid (w : PaintWidget) (e : Event) (hv : IndexValid w) :
    ∃ w', step w e = some w' ∧ IndexValid w' := by
  cases e with
  | setPaintTool tool =>
    obtain ⟨-, -, -, hl, hi⟩ := setPaintTool_fields w tool
    exact ⟨_, rfl, hv.transfer hl hi⟩
  | setImage image => exact ⟨_, rfl, (setImage_synced w image hv).indexValid⟩
  | onContentChanged => exact ⟨_, rfl, (onContentChanged_valid w hv).1⟩
  | undo =>
    by_cases hp : 0 < w.historyIndex
    · obtain ⟨u, hu, hs, -⟩ := undo_pos_fields w hv hp
      exact ⟨u, hu, hs.indexValid⟩
    · exact ⟨w, undo_of_not_pos w hp, hv⟩
  | redo =>
    by_cases hp : w.historyIndex < (w.historyList.length : Int) - 1
    · obtain ⟨r, hr, hs, -⟩ := redo_lt_fields w hv hp
      exact ⟨r, hr, hs.indexValid⟩
    · exact ⟨w, redo_of_last w hp, hv⟩
  | mousePress pos button =>
    obtain ⟨-, -, hl, hi, -⟩ := mousePressEvent_fields w pos button
    exact ⟨_, rfl, hv.transfer hl hi⟩
  | mouseMove pos buttons =>
    obtain ⟨-, hl, hi⟩ := mouseMoveEvent_fields w pos buttons
    exact ⟨_, rfl, hv.transfer hl hi⟩
  | mouseRelease pos reaction =>
    refine ⟨_, rfl, ?_⟩
    cases ht : w.d.currentTool with
    | none =>
      rw [mouseReleaseEvent_none w pos reaction ht]
      exact hv
    | some t =>
      obtain ⟨-, hyes, hno⟩ := mouseReleaseEvent_some w pos reaction t ht
      cases hd : (w.d.imageChanged || reaction.any ToolSignal.isMutation) with
      | true =>
        obtain ⟨hl, hi⟩ := hyes hd
        exact (synced_of_commit hv hl hi).indexValid
      | false =>
        obtain ⟨hl, hi, -, -⟩ := hno hd
        exact hv.transfer hl hi
  | toolSignal sig =>
    exact ⟨_, rfl, hv.transfer (toolSignal_historyList w sig) (toolSignal_historyIndex w sig)⟩

theorem run_indexValid (evs : List Event) :
    ∀ w : PaintWidget, IndexValid w → ∃ w', run w evs = some w' ∧ IndexValid w' := by
  induction evs with
  | nil =>
    intro w hv
    exact ⟨w, rfl, hv⟩
  | cons e es ih =>
    intro w hv
    obtain ⟨w1, h1, hv1⟩ := step_indexValid w e hv
    obtain ⟨w2, h2, hv2⟩ := ih w1 hv1
    exact ⟨w2, by simp [run, h1, h2], hv2⟩

/-- C5: from construction, every sequence of `setPaintTool`, `setImage`, `onContentChanged`,
`undo`, `redo`, press, move, release and tool signals is handled without an access outside the
history, and in the state reached the history has at least one entry and
`0 ≤ historyIndex < historyList.size()`. -/
theorem history_index_invariant (image : QImage) (garbage : Bool) (evs : List Event) :
    ∃ w, run (PaintWidget.construct image garbage) evs = some w ∧
      1 ≤ w.historyList.length ∧ 0 ≤ w.historyIndex ∧
      w.historyIndex < (w.historyList.length : Int) := by
  obtain ⟨w, hw, h0, h1⟩ := run_indexValid evs (PaintWidget.construct image garbage)
    (construct_synced image garbage).indexValid
  exact ⟨w, hw, by omega, h0, h1⟩

/-! ### C6 -/

theorem step_syncInv (w : PaintWidget) (g : Bool) (e : Event) (hJ : SyncInv w g)
    (ha : allowed g e = true) :
    ∃ w', step w e = some w' ∧ SyncInv w' (gestureAfter g e) := by
  obtain ⟨hv, hJ⟩ := hJ
  cases e with
  | setPaintTool tool =>
    obtain ⟨hm, ht, hc, hl, hi⟩ := setPaintTool_fields w tool
    refine ⟨_, rfl, hv.transfer hl hi, ?_⟩
    cases tool with
    | none =>
      simp only [allowed, Bool.not_eq_true'] at ha
      rcases hJ with hs | ⟨hg, -, -⟩
      · exact Or.inl (hs.carry hl hi hm)
      · rw [ha] at hg
        exact absurd hg (by decide)
    | some t =>
      rcases hJ with hs | ⟨hg, hd, -⟩
      · exact Or.inl (hs.carry hl hi hm)
      · exact Or.inr ⟨hg, hc.trans hd, by rw [ht]; rfl⟩
  | setImage image =>
    exact ⟨_, rfl, (setImage_synced w image hv).indexValid, Or.inl (setImage_synced w image hv)⟩
  | onContentChanged =>
    exact ⟨_, rfl, (onContentChanged_valid w hv).1, Or.inl (onContentChanged_listAt w hv)⟩
  | undo =>
    by_cases hp : 0 < w.historyIndex
    · obtain ⟨u, hu, hs, -⟩ := undo_pos_fields w hv hp
      exact ⟨u, hu, hs.indexValid, Or.inl hs⟩
    · exact ⟨w, undo_of_not_pos w hp, hv, hJ⟩
  | redo =>
    by_cases hp : w.historyIndex < (w.historyList.length : Int) - 1
    · obtain ⟨r, hr, hs, -⟩ := redo_lt_fields w hv hp
      exact ⟨r, hr, hs.indexValid, Or.inl hs⟩
    · exact ⟨w, redo_of_last w hp, hv, hJ⟩
  | mousePress pos button =>
    obtain ⟨hm, -, hl, hi, -⟩ := mousePressEvent_fields w pos button
    simp only [allowed, Bool.not_eq_true'] at ha
    refine ⟨_, rfl, hv.transfer hl hi, Or.inl ?_⟩
    rcases hJ with hs | ⟨hg, -, -⟩
    · exact hs.carry hl hi hm
    · rw [ha] at hg
      exact absurd hg (by decide)
  | mouseMove pos buttons =>
    obtain ⟨hd, hl, hi⟩ := mouseMoveEvent_fields w pos buttons
    refine ⟨_, rfl, hv.transfer hl hi, ?_⟩
    rcases hJ with hs | ⟨hg, hc, ht⟩
    · exact Or.inl (hs.carry hl hi (by rw [hd]))
    · exact Or.inr ⟨hg, by rw [hd]; exact hc, by rw [hd]; exact ht⟩
  | mouseRelease pos reaction =>
    refine ⟨_, rfl, ?_⟩
    cases ht : w.d.currentTool with
    | none =>
      rw [mouseReleaseEvent_none w pos reaction ht]
      refine ⟨hv, Or.inl ?_⟩
      rcases hJ with hs | ⟨-, -, hsome⟩
      · exact hs
      · rw [ht] at hsome
        exact absurd hsome (by decide)
    | some t =>
      obtain ⟨-, hyes, hno⟩ := mouseReleaseEvent_some w pos reaction t ht
      cases hd : (w.d.imageChanged || reaction.any ToolSignal.isMutation) with
      | true =>
        obtain ⟨hl, hi⟩ := hyes hd
        exact ⟨(synced_of_commit hv hl hi).indexValid, Or.inl (synced_of_commit hv hl hi)⟩
      | false =>
        obtain ⟨hl, hi, hm, -⟩ := hno hd
        refine ⟨hv.transfer hl hi, Or.inl ?_⟩
        rcases hJ with hs | ⟨-, hc, -⟩
        · exact hs.carry hl hi hm
        · simp [hc] at hd
  | toolSignal sig =>
    have hl := toolSignal_historyList w sig
    have hi := toolSignal_historyIndex w sig
    have ht := toolSignal_currentTool w sig
    have hc := toolSignal_imageChanged w sig
    refine ⟨_, rfl, hv.transfer hl hi, ?_⟩
    cases hnone : w.d.currentTool with
    | none =>
      rw [toolSignal_none w sig hnone]
      exact hJ
    | some t =>
      cases hmut : sig.isMutation with
      | false =>
        rcases hJ with hs | ⟨hg, hd, hsome⟩
        · exact Or.inl (hs.carry hl hi (toolSignal_image w sig hmut))
        · exact Or.inr ⟨hg, by rw [hc, hd]; rfl, by rw [ht]; exact hsome⟩
      | true =>
        simp only [allowed, hmut, Bool.not_true, Bool.or_false] at ha
        refine Or.inr ⟨ha, ?_, ?_⟩
        · rw [hc, hnone, hmut]
          simp
        · rw [ht, hnone]
          rfl

theorem run_syncInv (evs : List Event) :
    ∀ (w : PaintWidget) (g : Bool), SyncInv w g → disciplined g evs = true →
      ∃ w', run w evs = some w' ∧ SyncInv w' (gestureOpen g evs) := by
  induction evs with
  | nil =>
    intro w g hJ _
    exact ⟨w, rfl, hJ⟩
  | cons e es ih =>
    intro w g hJ hd
    simp only [disciplined, Bool.and_eq_true] at hd
    obtain ⟨w1, h1, hJ1⟩ := step_syncInv w g e hJ hd.1
    obtain ⟨w2, h2, hJ2⟩ := ih w1 (gestureAfter g e) hJ1 hd.2
    exact ⟨w2, by simp [run, h1, h2], by simpa [gestureOpen] using hJ2⟩

/-- C6, as stated, fails: after `setPaintTool` the bound tool signals a mutation with no
press delivered; no gesture is in progress, the entry at the index is still `pixel 0` and the
surface holds `pixel 1`. -/
theorem stray_paint_desynchronises :
    gestureOpen false strayPaint = false ∧
      ((run (PaintWidget.construct (pixel 0) false) strayPaint).map fun w =>
        (listAt w.historyList w.historyIndex, w.image)) = some (some (pixel 0), pixel 1) := by
  decide

/-- C6 (amended): from construction, along every sequence of `setPaintTool`, `setImage`,
`onContentChanged`, `undo`, `redo`, press, move, release and tool signals in which the tool
signals a surface mutation only during a gesture, a press arrives only when no gesture is in
progress and the tool is not removed during a gesture, every event is handled and, whenever no
gesture is in progress, the history entry at the current index is the surface image. -/
theorem synced_when_idle (image : QImage) (garbage : Bool) (evs : List Event)
    (hd : disciplined false evs = true) :
    ∃ w, run (PaintWidget.construct image garbage) evs = some w ∧
      (gestureOpen false evs = false →
        listAt w.historyList w.historyIndex = some w.image) := by
  obtain ⟨w, hw, -, hJ⟩ := run_syncInv evs (PaintWidget.construct image garbage) false
    ⟨(construct_synced image garbage).indexValid, Or.inl (construct_synced image garbage)⟩ hd
  refine ⟨w, hw, fun hg => ?_⟩
  rcases hJ with hs | ⟨hopen, -, -⟩
  · exact hs
  · rw [hg] at hopen
    exact absurd hopen (by decide)

/-- C6 (amended) on a painted stroke followed by `undo` and `redo`. -/
theorem synced_when_idle_witness :
    disciplined false strokeUndoRedo = true ∧ gestureOpen false strokeUndoRedo = false ∧
      ∃ w, run (PaintWidget.construct (pixel 0) true) strokeUndoRedo = some w ∧
        listAt w.historyList w.historyIndex = some w.image := by
  refine ⟨by decide, by decide, ?_⟩
  obtain ⟨w, hw, hs⟩ := synced_when_idle (pixel 0) true strokeUndoRedo (by decide)
  exact ⟨w, hw, hs (by decide)⟩

/-- A press delivered during a gesture clears the dirty flag: the stroke painted before it is
not committed, and history and surface differ once both releases have arrived. -/
theorem nested_press_desynchronises :
    gestureOpen false nestedPress = false ∧
      ((run (PaintWidget.construct (pixel 0) false) nestedPress).map fun w =>
        (listAt w.historyList w.historyIndex, w.image)) = some (some (pixel 0), pixel 5) := by
  decide

/-- With the tool removed during a gesture the release commits nothing, and history and surface
differ afterwards. -/
theorem tool_removed_desynchronises :
    gestureOpen false toolRemoved = false ∧
      ((run (PaintWidget.construct (pixel 0) false) toolRemoved).map fun w =>
        (listAt w.historyList w.historyIndex, w.image)) = some (some (pixel 0), pixel 5) := by
  decide

/-! ### Gestures -/

theorem run_cons (w : PaintWidget) (e : Event) (es : List Event) :
    run w (e :: es) = (step w e).bind fun w1 => run w1 es := rfl

theorem run_append (a b : List Event) :
    ∀ w : PaintWidget, run w (a ++ b) = (run w a).bind fun w1 => run w1 b := by
  induction a with
  | nil =>
    intro w
    simp [run]
  | cons e es ih =>
    intro w
    simp only [List.cons_append, run]
    cases step w e with
    | none => rfl
    | some w1 => simpa using ih w1

theorem run_body (body : List Event) :
    ∀ w : PaintWidget, (∀ e ∈ body, e.isGestureBody = true) →
      ∃ w', run w body = some w' ∧ w'.historyList = w.historyList ∧
        w'.historyIndex = w.historyIndex ∧ w'.d.currentTool = w.d.currentTool ∧
        w'.d.imageChanged
          = (w.d.imageChanged || (w.d.currentTool.isSome && body.any Event.isMutation)) ∧
        (body.any Event.isMutation = false → w'.d.image = w.d.image) := by
  induction body with
  | nil =>
    intro w _
    exact ⟨w, rfl, rfl, rfl, rfl, by simp, fun _ => rfl⟩
  | cons e es ih =>
    intro w hb
    have he := hb e (List.mem_cons_self _ _)
    have hes : ∀ x ∈ es, x.isGestureBody = true := fun x hx => hb x (List.mem_cons_of_mem _ hx)
    cases e with
    | mouseMove pos buttons =>
      obtain ⟨hd, hl, hi⟩ := mouseMoveEvent_fields w pos buttons
      obtain ⟨w', h1, h2, h3, h4, h5, h6⟩ := ih (w.mouseMoveEvent pos buttons) hes
      refine ⟨w', by simp [run, step, h1], h2.trans hl, h3.trans hi, by rw [h4, hd], ?_, ?_⟩
      · rw [h5, hd]
        simp [Event.isMutation]
      · intro hno
        simp only [List.any_cons, Event.isMutation, Bool.false_or] at hno
        rw [h6 hno, hd]
    | toolSignal sig =>
      obtain ⟨w', h1, h2, h3, h4, h5, h6⟩ := ih (w.toolSignal sig) hes
      refine ⟨w', by simp [run, step, h1], h2.trans (toolSignal_historyList w sig),
        h3.trans (toolSignal_historyIndex w sig), h4.trans (toolSignal_currentTool w sig), ?_, ?_⟩
      · rw [h5, toolSignal_imageChanged, toolSignal_currentTool, List.any_cons]
        simp only [Event.isMutation]
        generalize w.d.imageChanged = a
        generalize w.d.currentTool.isSome = b
        generalize sig.isMutation = c
        generalize es.any Event.isMutation = e
        cases a <;> cases b <;> cases c <;> cases e <;> rfl
      · intro hno
        simp only [List.any_cons, Event.isMutation, Bool.or_eq_false_iff] at hno
        rw [h6 hno.2, toolSignal_image w sig hno.1]
    | setPaintTool tool => simp [Event.isGestureBody] at he
    | setImage image => simp [Event.isGestureBody] at he
    | onContentChanged => simp [Event.isGestureBody] at he
    | undo => simp [Event.isGestureBody] at he
    | redo => simp [Event.isGestureBody] at he
    | mousePress pos button => simp [Event.isGestureBody] at he
    | mouseRelease pos reaction => simp [Event.isGestureBody] at he

theorem run_gesture (w : PaintWidget) (pos : QPoint) (button : MouseButtons)
    (body : List Event) (pos' : QPoint) (reaction : List ToolSignal)
    (hbody : ∀ e ∈ body, e.isGestureBody = true) :
    ∃ w1, run (w.mousePressEvent pos button) body = some w1 ∧
      run w (gesture pos button body pos' reaction) = some (w1.mouseReleaseEvent pos' reaction) ∧
      w1.historyList = w.historyList ∧ w1.historyIndex = w.historyIndex ∧
      w1.d.currentTool = w.d.currentTool ∧
      w1.d.imageChanged = ((w.d.imageChanged && !w.d.currentTool.isSome) ||
        (w.d.currentTool.isSome && body.any Event.isMutation)) ∧
      (body.any Event.isMutation = false → w1.d.image = w.d.image) := by
  obtain ⟨hm, ht, hl, hi, hc⟩ := mousePressEvent_fields w pos button
  obtain ⟨w1, h1, h2, h3, h4, h5, h6⟩ := run_body body (w.mousePressEvent pos button) hbody
  refine ⟨w1, h1, ?_, h2.trans hl, h3.trans hi, h4.trans ht, ?_, fun hno => (h6 hno).trans hm⟩
  · have hg : gesture pos button body pos' reaction
        = Event.mousePress pos button :: (body ++ [Event.mouseRelease pos' reaction]) := rfl
    rw [hg, run_cons]
    simp only [step, Option.some_bind]
    rw [run_append, h1]
    rfl
  · rw [h5, hc, ht]

/-! ### C3 -/

/-- C3: with a tool installed and the index inside the history, a gesture press, moves and
tool signals in any number and order, release is handled, and: if the tool signalled at least
one surface mutation between press and release (the signals raised inside `onMouseRelease`
included) the history becomes the entries up to the old index followed by exactly one new
entry, the surface image at release, with the index on it (the old history with one entry
appended when the index was last); if it signalled none, history and index are unchanged. -/
theorem gesture_commits_once (w : PaintWidget) (t : Tool) (pos : QPoint)
    (button : MouseButtons) (body : List Event) (pos' : QPoint) (reaction : List ToolSignal)
    (ht : w.d.currentTool = some t) (h0 : 0 ≤ w.historyIndex)
    (h1 : w.historyIndex < (w.historyList.length : Int))
    (hbody : ∀ e ∈ body, e.isGestureBody = true) :
    ∃ w', run w (gesture pos button body pos' reaction) = some w' ∧
      ((body.any Event.isMutation || reaction.any ToolSignal.isMutation) = true →
        w'.historyList = w.historyList.take (w.historyIndex.toNat + 1) ++ [w'.image] ∧
        w'.historyIndex = w.historyIndex + 1 ∧
        listAt w'.historyList w'.historyIndex = some w'.image ∧
        (w'.historyList.length : Int) = w.historyIndex + 2 ∧
        (w.historyIndex = (w.historyList.length : Int) - 1 →
          w'.historyList = w.historyList ++ [w'.image])) ∧
      ((body.any Event.isMutation || reaction.any ToolSignal.isMutation) = false →
        w'.historyList = w.historyList ∧ w'.historyIndex = w.historyIndex) := by
  obtain ⟨w1, -, hrun, hl, hi, htool, hc, -⟩ := run_gesture w pos button body pos' reaction hbody
  rw [ht] at htool
  simp only [ht, Option.isSome_some, Bool.not_true, Bool.and_false, Bool.true_and,
    Bool.false_or] at hc
  obtain ⟨-, hyes, hno⟩ := mouseReleaseEvent_some w1 pos' reaction t htool
  rw [hc, hl, hi] at hyes hno
  have hv1 : IndexValid w1 := IndexValid.transfer ⟨h0, h1⟩ hl hi
  have hnat : (w.historyIndex + 1).toNat = w.historyIndex.toNat + 1 := by omega
  refine ⟨_, hrun, fun hd => ?_, fun hd => ⟨(hno hd).1, (hno hd).2.1⟩⟩
  obtain ⟨hlist, hidx⟩ := hyes hd
  have hsync : Synced (w1.mouseReleaseEvent pos' reaction) :=
    synced_of_commit hv1 (by rw [hl, hi]; exact hlist) (by rw [hi]; exact hidx)
  rw [hnat] at hlist
  refine ⟨hlist, hidx, hsync, ?_, fun hlast => ?_⟩
  · rw [hlist]
    simp only [List.length_append, List.length_take, List.length_singleton]
    omega
  · rw [hlist, List.take_of_length_le (by omega)]
    rfl

/-- C3 on the widget `withTool`: a stroke with three moves, one overlay and two mutation
signals adds the one entry `pixel 5`, the surface image at release, at index `1`. -/
theorem gesture_commits_once_witness :
    withTool.d.currentTool = some 1 ∧ 0 ≤ withTool.historyIndex ∧
      withTool.historyIndex < (withTool.historyList.length : Int) ∧
      (∀ e ∈ strokeBody, e.isGestureBody = true) ∧
      ∃ w', run withTool (gesture (0, 0) LeftButton strokeBody (3, 0) []) = some w' ∧
        w'.historyList = [pixel 0, pixel 5] ∧ w'.historyIndex = 1 ∧ w'.image = pixel 5 := by
  refine ⟨by decide, by decide, by decide, by decide, ?_⟩
  obtain ⟨w', hrun, hyes, -⟩ := gesture_commits_once withTool 1 (0, 0) LeftButton strokeBody
    (3, 0) [] (by decide) (by decide) (by decide) (by decide)
  obtain ⟨hl, hi, hs, -, -⟩ := hyes (by decide)
  obtain ⟨w1, hw1, hrun', -, -, -, -, -⟩ := run_gesture withTool (0, 0) LeftButton strokeBody
    (3, 0) [] (by decide)
  have himg : w'.image = pixel 5 := by
    have hw1' : w1.d.image = pixel 5 ∧ w1.d.currentTool = some 1 := by
      have : (run (withTool.mousePressEvent (0, 0) LeftButton) strokeBody).map
          (fun v => (v.d.image, v.d.currentTool)) = some (pixel 5, some 1) := by decide
      rw [hw1] at this
      simpa using this
    have hw' : w' = w1.mouseReleaseEvent (3, 0) [] := by
      rw [hrun] at hrun'
      exact Option.some.inj hrun'
    rw [hw']
    simp [PaintWidget.mouseReleaseEvent, PaintWidget.image, hw1'.2]
    split <;> simpa [onContentChanged_d] using hw1'.1
  refine ⟨w', hrun, ?_, ?_, himg⟩
  · rw [hl, himg]
    rfl
  · rw [hi]
    rfl

/-! ### C7 -/

theorem run_swapGesture (w : PaintWidget) (a : Tool) (tool : Option Tool) (pos : QPoint)
    (button : MouseButtons) (body1 body2 : List Event) (pos' : QPoint)
    (reaction : List ToolSignal) (ha : w.d.currentTool = some a)
    (hb1 : ∀ e ∈ body1, e.isGestureBody = true) (hb2 : ∀ e ∈ body2, e.isGestureBody = true)
    (hmut : body1.any Event.isMutation = true) :
    ∃ w3 : PaintWidget, run w (swapGesture pos button body1 tool body2 pos' reaction)
        = some (w3.mouseReleaseEvent pos' reaction) ∧
      w3.historyList = w.historyList ∧ w3.historyIndex = w.historyIndex ∧
      w3.d.currentTool = tool ∧ w3.d.imageChanged = true := by
  obtain ⟨-, ht0, hl0, hi0, -⟩ := mousePressEvent_fields w pos button
  obtain ⟨w1, h1, hl1, hi1, ht1, hc1, -⟩ := run_body body1 (w.mousePressEvent pos button) hb1
  obtain ⟨-, ht2, hc2, hl2, hi2⟩ := setPaintTool_fields w1 tool
  obtain ⟨w3, h3, hl3, hi3, ht3, hc3, -⟩ := run_body body2 (w1.setPaintTool tool) hb2
  refine ⟨w3, ?_, ?_, ?_, ht3.trans ht2, ?_⟩
  · unfold swapGesture
    rw [run_cons]
    simp only [step, Option.some_bind]
    rw [run_append, h1]
    simp only [Option.some_bind]
    rw [run_cons]
    simp only [step, Option.some_bind]
    rw [run_append, h3]
    rfl
  · rw [hl3, hl2, hl1, hl0]
  · rw [hi3, hi2, hi1, hi0]
  · rw [hc3, hc2, hc1, ht0, ha, hmut]
    simp

/-- C7, as stated, fails: the tool `1` signals a mutation after the press, `setPaintTool`
installs the tool `2`, which signals nothing, and the release still commits; before the press
the history was `[pixel 0]` at index `0`, after the release it is `[pixel 0, pixel 9]` at
index `1`. -/
theorem swap_after_paint_commits :
    (withTool.historyList, withTool.historyIndex) = ([pixel 0], 0) ∧
      ((run withTool swapAfterPaint).map fun w => (w.historyList, w.historyIndex))
        = some ([pixel 0, pixel 9], 1) := by
  refine ⟨by decide, ?_⟩
  simp [run, step, swapAfterPaint, swapGesture, withTool, PaintWidget.construct,
    PaintWidget.setPaintTool, PaintWidget.mousePressEvent, PaintWidget.toolSignal,
    PaintWidget.mouseReleaseEvent, PaintWidget.onPainted, PaintWidget.toolPaints,
    PaintWidgetPrivate.initialise, PaintWidgetPrivate.updateImageLabel, onContentChanged_eq,
    pixel]

/-- C7 (amended): `setPaintTool` leaves the dirty flag as it is.  When a tool signals a surface
mutation after the press, `setPaintTool` is then called and the release arrives (whatever is
signalled after the swap), the gesture is handled and: with a tool installed by the swap the
release commits, the history becoming the entries up to the old index followed by the surface
image, with the index on it; with the tool removed by the swap (`setPaintTool` of no tool)
nothing is committed, history and index staying as before the press. -/
theorem tool_swap_keeps_dirty (w : PaintWidget) (a : Tool) (tool : Option Tool) (pos : QPoint)
    (button : MouseButtons) (body1 body2 : List Event) (pos' : QPoint)
    (reaction : List ToolSignal) (ha : w.d.currentTool = some a) (h0 : 0 ≤ w.historyIndex)
    (h1 : w.historyIndex < (w.historyList.length : Int))
    (hb1 : ∀ e ∈ body1, e.isGestureBody = true) (hb2 : ∀ e ∈ body2, e.isGestureBody = true)
    (hmut : body1.any Event.isMutation = true) :
    (∀ v : PaintWidget, (v.setPaintTool tool).d.imageChanged = v.d.imageChanged) ∧
      ∃ w', run w (swapGesture pos button body1 tool body2 pos' reaction) = some w' ∧
        (tool.isSome = true →
          w'.historyList = w.historyList.take (w.historyIndex.toNat + 1) ++ [w'.image] ∧
          w'.historyIndex = w.historyIndex + 1 ∧
          listAt w'.historyList w'.historyIndex = some w'.image) ∧
        (tool = none → w'.historyList = w.historyList ∧ w'.historyIndex = w.historyIndex) := by
  refine ⟨fun v => (setPaintTool_fields v tool).2.2.1, ?_⟩
  obtain ⟨w3, hrun, hl, hi, ht, hc⟩ :=
    run_swapGesture w a tool pos button body1 body2 pos' reaction ha hb1 hb2 hmut
  have hnat : (w.historyIndex + 1).toNat = w.historyIndex.toNat + 1 := by omega
  refine ⟨_, hrun, fun hsome => ?_, fun hnone => ?_⟩
  · obtain ⟨b, hb⟩ := Option.isSome_iff_exists.mp hsome
    obtain ⟨-, hyes, -⟩ := mouseReleaseEvent_some w3 pos' reaction b (ht.trans hb)
    obtain ⟨hlist, hidx⟩ := hyes (by rw [hc]; rfl)
    have hsync : Synced (w3.mouseReleaseEvent pos' reaction) :=
      synced_of_commit (IndexValid.transfer ⟨h0, h1⟩ hl hi) hlist hidx
    rw [hl, hi, hnat] at hlist
    rw [hi] at hidx
    exact ⟨hlist, hidx, hsync⟩
  · rw [mouseReleaseEvent_none w3 pos' reaction (ht.trans hnone)]
    exact ⟨hl, hi⟩

/-- C7 (amended) on `withTool`: the tool `1` paints, the tool `2` is installed, the release
commits one entry, the surface image. -/
theorem tool_swap_keeps_dirty_witness :
    withTool.d.currentTool = some 1 ∧ 0 ≤ withTool.historyIndex ∧
      withTool.historyIndex < (withTool.historyList.length : Int) ∧
      ∃ w', run withTool swapAfterPaint = some w' ∧
        w'.historyList = [pixel 0, w'.image] ∧ w'.historyIndex = 1 := by
  refine ⟨by decide, by decide, by decide, ?_⟩
  obtain ⟨-, w', hrun, hyes, -⟩ := tool_swap_keeps_dirty withTool 1 (some 2) (0, 0) LeftButton
    [Event.toolSignal (.painted (.surface [9]))] [] (0, 0) [] (by decide) (by decide)
    (by decide) (by decide) (by decide) (by decide)
  obtain ⟨hl, hi, -⟩ := hyes rfl
  exact ⟨w', hrun, hl, hi⟩

/-! ### C8 -/

theorem isMoveOrOverlay_body (body : List Event)
    (h : ∀ e ∈ body, e.isMoveOrOverlay = true) :
    (∀ e ∈ body, e.isGestureBody = true) ∧ body.any Event.isMutation = false := by
  constructor
  · intro e he
    have := h e he
    cases e <;> simp_all [Event.isMoveOrOverlay, Event.isGestureBody]
  · rw [List.any_eq_false]
    intro e he
    have := h e he
    cases e with
    | toolSignal sig =>
      cases sig with
      | painted dev => simp [Event.isMoveOrOverlay, ToolSignal.isOverlay] at this
      | overlaid ov mode => simp [Event.isMutation, ToolSignal.isMutation]
    | _ => simp [Event.isMutation]

theorem isOverlay_reaction (reaction : List ToolSignal)
    (h : ∀ s ∈ reaction, s.isOverlay = true) :
    reaction.any ToolSignal.isMutation = false := by
  rw [List.any_eq_false]
  intro s hs
  have := h s hs
  cases s with
  | painted dev => simp [ToolSignal.isOverlay] at this
  | overlaid ov mode => simp [ToolSignal.isMutation]

/-- C8: handling the tool's overlay signal (`updateImageLabelWithOverlay`, reached through the
connected lambda) leaves the surface image, the dirty flag, the history and the index
unchanged; and every gesture press, moves and overlay signals in any number and order, release
in which the tool raises only overlay signals is handled and leaves `image()`, the history and
the index as they were before the press. -/
theorem overlay_leaves_surface_and_history (w : PaintWidget) (overlayImage : QImage)
    (mode : CompositionMode) (pos : QPoint) (button : MouseButtons) (body : List Event)
    (pos' : QPoint) (reaction : List ToolSignal)
    (hbody : ∀ e ∈ body, e.isMoveOrOverlay = true)
    (hreaction : ∀ s ∈ reaction, s.isOverlay = true) :
    ((w.d.updateImageLabelWithOverlay overlayImage mode).image = w.d.image ∧
      (w.d.updateImageLabelWithOverlay overlayImage mode).imageChanged = w.d.imageChanged) ∧
    ((w.toolSignal (.overlaid overlayImage mode)).image = w.image ∧
      (w.toolSignal (.overlaid overlayImage mode)).d.imageChanged = w.d.imageChanged ∧
      (w.toolSignal (.overlaid overlayImage mode)).historyList = w.historyList ∧
      (w.toolSignal (.overlaid overlayImage mode)).historyIndex = w.historyIndex) ∧
    ∃ w', run w (gesture pos button body pos' reaction) = some w' ∧
      w'.image = w.image ∧ w'.historyList = w.historyList ∧
      w'.historyIndex = w.historyIndex := by
  refine ⟨⟨rfl, rfl⟩, ⟨?_, ?_, ?_, ?_⟩, ?_⟩
  · exact toolSignal_image w _ rfl
  · rw [toolSignal_imageChanged]
    simp [ToolSignal.isMutation]
  · exact toolSignal_historyList w _
  · exact toolSignal_historyIndex w _
  · obtain ⟨hb, hnob⟩ := isMoveOrOverlay_body body hbody
    have hnor := isOverlay_reaction reaction hreaction
    obtain ⟨w1, -, hrun, hl, hi, ht, hc, hm⟩ := run_gesture w pos button body pos' reaction hb
    refine ⟨_, hrun, ?_⟩
    cases htool : w.d.currentTool with
    | none =>
      rw [mouseReleaseEvent_none w1 pos' reaction (ht.trans htool)]
      exact ⟨hm hnob, hl, hi⟩
    | some t =>
      obtain ⟨-, -, hno⟩ := mouseReleaseEvent_some w1 pos' reaction t (ht.trans htool)
      have hd : (w1.d.imageChanged || reaction.any ToolSignal.isMutation) = false := by
        rw [hc, htool, hnob, hnor]
        simp
      obtain ⟨hl', hi', hm', -⟩ := hno hd
      exact ⟨hm'.trans (hm hnob), hl'.trans hl, hi'.trans hi⟩

/-- C8 on `withTool`: a gesture with two moves and two overlay signals, and one more overlay
raised inside `onMouseRelease`, leaves surface, history and index as they were. -/
theorem overlay_leaves_surface_and_history_witness :
    (∀ e ∈ previewBody, e.isMoveOrOverlay = true) ∧
      (∀ s ∈ [ToolSignal.overlaid (pixel 7) 0], s.isOverlay = true) ∧
      ∃ w', run withTool (gesture (0, 0) LeftButton previewBody (2, 0)
          [ToolSignal.overlaid (pixel 7) 0]) = some w' ∧
        w'.image = pixel 0 ∧ w'.historyList = [pixel 0] ∧ w'.historyIndex = 0 := by
  refine ⟨by decide, by decide, ?_⟩
  obtain ⟨-, -, w', hrun, hm, hl, hi⟩ := overlay_leaves_surface_and_history withTool (pixel 8) 0
    (0, 0) LeftButton previewBody (2, 0) [ToolSignal.overlaid (pixel 7) 0] (by decide)
    (by decide)
  exact ⟨w', hrun, hm, hl, hi⟩

/-! ### C9 -/

/-- C9, as stated, fails: with the tool `1` installed and the left and right buttons held
together, both buttons test as held and the move is not forwarded, the widget (its trace of
tool calls included) staying as it was. -/
theorem move_with_both_buttons_ignored :
    testFlag (LeftButton ||| RightButton) LeftButton = true ∧
      testFlag (LeftButton ||| RightButton) RightButton = true ∧
      withTool.d.currentTool = some 1 ∧
      withTool.mouseMoveEvent (5, 5) (LeftButton ||| RightButton) = withTool := by
  refine ⟨by decide, by decide, by decide, ?_⟩
  simp [PaintWidget.mouseMoveEvent, LeftButton, RightButton]

/-- C9 (amended): with a tool installed, a pointer move is forwarded to the tool
(`onMouseMove` with the position) if and only if the set of held buttons is exactly the left
button or exactly the right button; for every other set of held buttons (none, other buttons
only, left and right together, left or right together with another button) the widget stays
as it was. -/
theorem move_forwarded_iff (w : PaintWidget) (t : Tool) (pos : QPoint)
    (buttons : MouseButtons) (ht : w.d.currentTool = some t) :
    ((w.mouseMoveEvent pos buttons).trace = w.trace ++ [Effect.onMouseMove t pos] ↔
        (buttons = LeftButton ∨ buttons = RightButton)) ∧
      (¬ (buttons = LeftButton ∨ buttons = RightButton) →
        w.mouseMoveEvent pos buttons = w) := by
  by_cases hb : buttons = LeftButton ∨ buttons = RightButton
  · have hc : ¬ (buttons ≠ LeftButton ∧ buttons ≠ RightButton) := by
      rintro ⟨h1, h2⟩
      rcases hb with h | h
      · exact h1 h
      · exact h2 h
    refine ⟨⟨fun _ => hb, fun _ => ?_⟩, fun h => absurd hb h⟩
    unfold PaintWidget.mouseMoveEvent
    rw [if_neg hc, ht]
  · have hc : buttons ≠ LeftButton ∧ buttons ≠ RightButton :=
      ⟨fun h => hb (Or.inl h), fun h => hb (Or.inr h)⟩
    have hw : w.mouseMoveEvent pos buttons = w := by
      unfold PaintWidget.mouseMoveEvent
      rw [if_pos hc]
    refine ⟨⟨fun h => ?_, fun h => absurd h hb⟩, fun _ => hw⟩
    rw [hw] at h
    have := congrArg List.length h
    simp at this

/-- C9 (amended) on `withTool`: a move with the left button alone reaches the tool, a move
with left and middle held together does not. -/
theorem move_forwarded_iff_witness :
    withTool.d.currentTool = some 1 ∧
      (withTool.mouseMoveEvent (5, 5) LeftButton).trace
        = withTool.trace ++ [Effect.onMouseMove 1 (5, 5)] ∧
      withTool.mouseMoveEvent (5, 5) (LeftButton ||| MiddleButton) = withTool := by
  have h1 := move_forwarded_iff withTool 1 (5, 5) LeftButton (by decide)
  have h2 := move_forwarded_iff withTool 1 (5, 5) (LeftButton ||| MiddleButton) (by decide)
  exact ⟨by decide, h1.1.mpr (Or.inl rfl), h2.2 (by decide)⟩

/-! ### C10 -/

theorem wheelEvent_scale (v : PaintWidget) (delta : Int) :
    (v.wheelEvent delta).d.scale
      = if delta > 0 then max (v.d.scale / (11 / 10)) (1 / 10)
        else min (v.d.scale * (11 / 10)) 8 := by
  unfold PaintWidget.wheelEvent
  by_cases hd : delta > 0
  · simp only [hd, if_true]
    by_cases hs : v.d.scale / (11 / 10) < 1 / 10
    · rw [if_pos hs, max_eq_right (le_of_lt hs)]
    · rw [if_neg hs, max_eq_left (not_lt.mp hs)]
  · simp only [hd, if_false]
    by_cases hs : v.d.scale * (11 / 10) > 8
    · rw [if_pos hs, min_eq_right (le_of_lt hs)]
    · rw [if_neg hs, min_eq_left (not_lt.mp hs)]

theorem wheelEvent_keeps_range (v : PaintWidget) (delta : Int)
    (h : 1 / 10 ≤ v.d.scale ∧ v.d.scale ≤ 8) :
    1 / 10 ≤ (v.wheelEvent delta).d.scale ∧ (v.wheelEvent delta).d.scale ≤ 8 := by
  obtain ⟨hlo, hhi⟩ := h
  rw [wheelEvent_scale]
  have hdiv : v.d.scale / (11 / 10) = v.d.scale * (10 / 11) := by
    field_simp
  by_cases hd : delta > 0
  · rw [if_pos hd, hdiv]
    refine ⟨le_max_right _ _, max_le ?_ (by norm_num)⟩
    linarith
  · rw [if_neg hd]
    refine ⟨le_min ?_ (by norm_num), min_le_right _ _⟩
    linarith

theorem zoomRun_wheels (deltas : List Int) :
    ∀ v : PaintWidget, 1 / 10 ≤ v.d.scale ∧ v.d.scale ≤ 8 →
      ∃ w, zoomRun v (deltas.map ZoomEvent.wheel) = some w ∧
        1 / 10 ≤ w.d.scale ∧ w.d.scale ≤ 8 := by
  induction deltas with
  | nil =>
    intro v hv
    exact ⟨v, rfl, hv⟩
  | cons delta rest ih =>
    intro v hv
    obtain ⟨w, hw, hr⟩ := ih (v.wheelEvent delta) (wheelEvent_keeps_range v delta hv)
    exact ⟨w, by simp [zoomRun, zoomStep, hw], hr⟩

/-- C10, as stated, fails: `setScale` stores the parsed rate unclamped; from construction,
`setScale("1000%")` leaves the scale at `10`, above `8`. -/
theorem setScale_leaves_range :
    ((zoomRun (PaintWidget.construct (pixel 0) false) [ZoomEvent.setScale "1000%"]).map
        fun w => w.getScale) = some 10 ∧ ¬ ((10 : ℚ) ≤ 8) := by
  have h1 : mid0 "1000%".toList (lastIndexOfFrom '%' "1000%".toList 0 (-1))
      = ['1', '0', '0', '0'] := by decide
  have h2 : toFloat ['1', '0', '0', '0'] = 1000 := by
    simp [toFloat, digitsValue]
  refine ⟨?_, by norm_num⟩
  simp only [zoomRun, zoomStep, Option.some_bind, Option.map_some', PaintWidget.setScale,
    PaintWidget.getScale, h1, h2]
  norm_num

theorem blankImage_size (width height : Nat) :
    (PaintWidget.blankImage width height).width = (width : Int) ∧
      (PaintWidget.blankImage width height).height = (height : Int) := ⟨rfl, rfl⟩

/-- The method `autoScale` stores the fitting factor unclamped as well: a 40 by 30 image in a
2 by 2 window leaves the scale at `1 / 20`, below `1 / 10`. -/
theorem autoScale_leaves_range :
    ((zoomRun (PaintWidget.construct (PaintWidget.blankImage 40 30) false)
        [ZoomEvent.autoScale 2 2]).map fun w => w.getScale) = some (1 / 20) ∧
      ¬ ((1 / 10 : ℚ) ≤ 1 / 20) := by
  refine ⟨?_, by norm_num⟩
  simp only [zoomRun, zoomStep, PaintWidget.autoScale, PaintWidget.getScale,
    PaintWidget.construct, PaintWidgetPrivate.initialise, PaintWidget.image,
    (blankImage_size 40 30).1, (blankImage_size 40 30).2]
  norm_num

/-- C10 (amended): the scale is `1` at construction and after any sequence of `wheelEvent`
calls, for every wheel delta, it lies in `[0.1, 8]` (exact rationals).  A wheel step with a
positive delta divides the scale by `1.1` and raises the result to `0.1` when it is below;
any other step multiplies it by `1.1` and lowers the result to `8` when it is above.
(`setScale` and `autoScale` store their value unclamped.) -/
theorem wheel_scale_bounded (image : QImage) (garbage : Bool) (deltas : List Int) :
    (PaintWidget.construct image garbage).getScale = 1 ∧
      (∃ w, zoomRun (PaintWidget.construct image garbage) (deltas.map ZoomEvent.wheel) = some w ∧
        1 / 10 ≤ w.getScale ∧ w.getScale ≤ 8) ∧
      ∀ (v : PaintWidget) (delta : Int),
        (v.wheelEvent delta).getScale
          = if delta > 0 then max (v.getScale / (11 / 10)) (1 / 10)
            else min (v.getScale * (11 / 10)) 8 := by
  refine ⟨rfl, ?_, fun v delta => wheelEvent_scale v delta⟩
  exact zoomRun_wheels deltas (PaintWidget.construct image garbage)
    (by simp [PaintWidget.construct, PaintWidgetPrivate.initialise]; norm_num)

end PhotoFlare
